import Mathlib

/-!
# `simplevec` (estl.h): a verification development

The container of `src/estl.h` is embedded over an explicit free store.

* A storage block is a list of slots; a slot is `none` while it holds no
  constructed value (fresh storage from `operator new`).
* A pointer is a block number (or null) and an element offset.
* Every operation takes the free store and the container fields
  (`sze`, `res`, `buf`) and returns the new free store and fields, or `none`
  when the code would access memory outside a live block (a null or released
  block, or an offset past the end of the block).
* `size_type` is `uint32_t`: every `size_type` computation is reduced modulo
  `2^32`.
-/

namespace Estl

/-! ## Machine integers -/

/-- Number of values of `size_type` (`uint32_t`): `2^32`. -/
def SIZE_MOD : Nat := 4294967296

/-- Number of values of `unsigned long` and `size_t` (LP64): `2^64`. -/
def ULONG_MOD : Nat := 18446744073709551616

/-- The element limit documented in the source (`2**31`). -/
def LIMIT : Nat := 2147483648

/-- Conversion of an integer value to `size_type`. -/
def to_size_type (x : Int) : Nat := (x % 4294967296).toNat

/-- Conversion of an integer value to `size_t`. -/
def to_size_t (x : Int) : Nat := (x % 18446744073709551616).toNat

/-! ## Memory -/

/-- A pointer to an element slot: the block (`none` for the null pointer) and the offset. -/
structure Ptr where
  blk : Option Nat
  off : Nat
deriving DecidableEq

/-- A storage block, one slot per element; `none` is a slot without a constructed value. -/
abbrev Block (T : Type) := List (Option T)

/-- The free store: entry `b` is block `b`, or `none` once the block is released. -/
abbrev Heap (T : Type) := List (Option (Block T))

/-- The null pointer. -/
def null : Ptr := ⟨none, 0⟩

/-- Pointer plus element count (`p + k`). -/
def Ptr.add (p : Ptr) (k : Nat) : Ptr := ⟨p.blk, p.off + k⟩

/-- Pointer difference in elements (`a - b`). -/
def Ptr.diff (a b : Ptr) : Int := (a.off : Int) - (b.off : Int)

/-- The live block with number `b`, if any; the null pointer has no block. -/
def blockAt {T : Type} (h : Heap T) : Option Nat → Option (Block T)
  | none => none
  | some b => (h[b]?).join

/-- Replace the contents of block `b`. -/
def putBlock {T : Type} (h : Heap T) (b : Option Nat) (m : Block T) : Heap T :=
  match b with
  | none => h
  | some b => h.set b (some m)

/-- Read of the slot `*p`; `none` when `p` is not inside a live block. -/
def load {T : Type} (h : Heap T) (p : Ptr) : Option (Option T) :=
  match blockAt h p.blk with
  | none => none
  | some m => m[p.off]?

/-- Write of the slot `*p`; `none` when `p` is not inside a live block. -/
def store {T : Type} (h : Heap T) (p : Ptr) (v : Option T) : Option (Heap T) :=
  match blockAt h p.blk with
  | none => none
  | some m => if p.off < m.length then some (putBlock h p.blk (m.set p.off v)) else none

/-- Read of the `n` slots starting at `p`. -/
def readRange {T : Type} (h : Heap T) (p : Ptr) (n : Nat) : Option (List (Option T)) :=
  match blockAt h p.blk with
  | none => none
  | some m => if p.off + n ≤ m.length then some ((m.drop p.off).take n) else none

/-- Write of the slots `xs` starting at `p`. -/
def writeRange {T : Type} (h : Heap T) (p : Ptr) (xs : List (Option T)) : Option (Heap T) :=
  match blockAt h p.blk with
  | none => none
  | some m =>
    if p.off + xs.length ≤ m.length then
      some (putBlock h p.blk (m.take p.off ++ xs ++ m.drop (p.off + xs.length)))
    else none

/-- The library `memmove` on `n` elements: the source range is read whole, then written.
A move of zero elements touches no memory. -/
def memmove {T : Type} (h : Heap T) (dst src : Ptr) (n : Nat) : Option (Heap T) :=
  if n = 0 then some h
  else match readRange h src n with
    | none => none
    | some xs => writeRange h dst xs

/-- The library `memcpy` on `n` elements: as `memmove`, and the ranges must not overlap. -/
def memcpy {T : Type} (h : Heap T) (dst src : Ptr) (n : Nat) : Option (Heap T) :=
  if n = 0 then some h
  else if dst.blk = src.blk ∧ dst.off < src.off + n ∧ src.off < dst.off + n then none
  else memmove h dst src n

/-- The call `::operator new (sizeof (T) * n)`: a fresh block of `n` slots without values. -/
def operator_new {T : Type} (h : Heap T) (n : Nat) : Heap T × Ptr :=
  (h ++ [some (List.replicate n none)], ⟨some h.length, 0⟩)

/-- The call `::operator delete (p)`: releases the block `p` is the start of; nothing for null. -/
def operator_delete {T : Type} (h : Heap T) (p : Ptr) : Option (Heap T) :=
  match p.blk with
  | none => some h
  | some b =>
    match blockAt h (some b) with
    | none => none
    | some _ => if p.off = 0 then some (h.set b none) else none

/-! ## The container -/

/-- The fields of `simplevec<T>`. -/
structure simplevec where
  sze : Nat
  res : Nat
  buf : Ptr
deriving DecidableEq

/-- A free store together with the fields of a container living in it. -/
abbrev St (T : Type) := Heap T × simplevec

/-- Modelled from the spec: `ecb_ld32` of `ecb.h` (not among the sources), used by
`good_size`; the spec gives it as `floor(log2(need))`. Computed by halving, `fuel` times
at most. -/
def ld_aux : Nat → Nat → Nat
  | 0, _ => 0
  | fuel + 1, x => if 2 ≤ x then ld_aux fuel (x / 2) + 1 else 0

/-- Modelled from the spec: `ecb_ld32 (x)` is `floor(log2(x))` for a 32-bit `x`. -/
def ecb_ld32 (x : Nat) : Nat := ld_aux 32 x

/-- Source `is_simple_enough ()`: the body starts with `return 1`. -/
def is_simple_enough : Bool := true

/-- The loop of `construct`, `while (n--) new (*a++) T ()`, read as the construction of
`T ()` in the slot `a` points to. -/
def construct_loop {T : Type} [Inhabited T] : Heap T → Ptr → Nat → Option (Heap T)
  | h, _, 0 => some h
  | h, a, n + 1 =>
    match store h a (some default) with
    | none => none
    | some h1 => construct_loop h1 (a.add 1) n

/-- Source `construct (a, n)`. -/
def construct {T : Type} [Inhabited T] (h : Heap T) (a : Ptr) (n : Nat) : Option (Heap T) :=
  if !is_simple_enough then construct_loop h a n else some h

/-- The loop of `destruct`, `while (n--) (*a++).~T ()`: a destroyed slot holds no value. -/
def destruct_loop {T : Type} : Heap T → Ptr → Nat → Option (Heap T)
  | h, _, 0 => some h
  | h, a, n + 1 =>
    match store h a none with
    | none => none
    | some h1 => destruct_loop h1 (a.add 1) n

/-- Source `destruct (a, n)`. -/
def destruct {T : Type} (h : Heap T) (a : Ptr) (n : Nat) : Option (Heap T) :=
  if !is_simple_enough then destruct_loop h a n else some h

/-- Source `cop_new (a, b)`: `new (a) T (*b)`. -/
def cop_new {T : Type} (h : Heap T) (a b : Ptr) : Option (Heap T) :=
  match load h b with
  | none => none
  | some v => store h a v

/-- Source `cop_set (a, b)`: `*a = *b`. -/
def cop_set {T : Type} (h : Heap T) (a b : Ptr) : Option (Heap T) :=
  match load h b with
  | none => none
  | some v => store h a v

/-- The loop of `copy_lower`: `while (n--) op (dst++, src++)`. -/
def copy_lower_loop {T : Type} (op : Heap T → Ptr → Ptr → Option (Heap T)) :
    Heap T → Ptr → Ptr → Nat → Option (Heap T)
  | h, _, _, 0 => some h
  | h, dst, src, n + 1 =>
    match op h dst src with
    | none => none
    | some h1 => copy_lower_loop op h1 (dst.add 1) (src.add 1) n

/-- Source `copy_lower (dst, src, n, op)`. -/
def copy_lower {T : Type} (h : Heap T) (dst src : Ptr) (n : Nat)
    (op : Heap T → Ptr → Ptr → Option (Heap T)) : Option (Heap T) :=
  if is_simple_enough then memmove h dst src n
  else copy_lower_loop op h dst src n

/-- The loop of `copy_higher`: `while (n--) op (dst + n, src + n)`. -/
def copy_higher_loop {T : Type} (op : Heap T → Ptr → Ptr → Option (Heap T)) :
    Heap T → Ptr → Ptr → Nat → Option (Heap T)
  | h, _, _, 0 => some h
  | h, dst, src, n + 1 =>
    match op h (dst.add n) (src.add n) with
    | none => none
    | some h1 => copy_higher_loop op h1 dst src n

/-- Source `copy_higher (dst, src, n, op)`. -/
def copy_higher {T : Type} (h : Heap T) (dst src : Ptr) (n : Nat)
    (op : Heap T → Ptr → Ptr → Option (Heap T)) : Option (Heap T) :=
  if is_simple_enough then memmove h dst src n
  else copy_higher_loop op h dst src n

/-- Source `copy (dst, src, n, op)`. -/
def copy {T : Type} (h : Heap T) (dst src : Ptr) (n : Nat)
    (op : Heap T → Ptr → Ptr → Option (Heap T)) : Option (Heap T) :=
  if is_simple_enough then memcpy h dst src n
  else copy_lower h dst src n op

/-- Source `alloc (n)`. -/
def alloc {T : Type} (h : Heap T) (n : Nat) : Heap T × Ptr := operator_new h n

/-- Source `dealloc ()`: `destruct (buf, sze); ::operator delete (buf)`. -/
def dealloc {T : Type} (h : Heap T) (s : simplevec) : Option (Heap T) :=
  match destruct h s.buf s.sze with
  | none => none
  | some h1 => operator_delete h1 s.buf

/-- Source `good_size (n)`: `n ? 2UL << ecb_ld32 (n) : 5`, converted to `size_type`. -/
def good_size (n : Nat) : Nat :=
  if n ≠ 0 then ((2 <<< ecb_ld32 n) % ULONG_MOD) % SIZE_MOD else 5

/-- Source `capacity ()`. -/
def capacity (s : simplevec) : Nat := s.res

/-- Source `size ()`. -/
def size (s : simplevec) : Nat := s.sze

/-- Source `empty ()`. -/
def empty (s : simplevec) : Bool := size s == 0

/-- Source `begin ()`: `&buf [0]`. -/
def begin_ (s : simplevec) : Ptr := s.buf.add 0

/-- Source `end ()`: `&buf [sze]`. -/
def end_ (s : simplevec) : Ptr := s.buf.add s.sze

/-- Source `operator [] (idx)`: the slot `buf[idx]`. -/
def index {T : Type} (h : Heap T) (s : simplevec) (idx : Nat) : Option (Option T) :=
  load h (s.buf.add idx)

/-- The default constructor `simplevec ()`: `sze(0), res(0), buf(0)`. -/
def mk_empty : simplevec := ⟨0, 0, null⟩

/-- Source `ins (where, n)`. -/
def ins {T : Type} [Inhabited T] (h : Heap T) (s : simplevec) (where_ : Ptr) (n : Nat) :
    Option (St T) :=
  let pos := to_size_type (where_.diff (begin_ s))
  let grown : Option (St T) :=
    if to_size_type (s.sze + n) > s.res then
      let res := good_size (to_size_type (s.sze + n))
      let (h1, nbuf) := alloc h res
      match copy h1 nbuf s.buf s.sze cop_new with
      | none => none
      | some h2 =>
        match dealloc h2 { s with res := res } with
        | none => none
        | some h3 => some (h3, { s with res := res, buf := nbuf })
    else some (h, s)
  match grown with
  | none => none
  | some (h1, s1) =>
    match construct h1 (s1.buf.add s1.sze) n with
    | none => none
    | some h2 =>
      match copy_higher h2 ((s1.buf.add pos).add n) (s1.buf.add pos)
          (to_size_type (s1.sze - pos)) cop_set with
      | none => none
      | some h3 => some (h3, { s1 with sze := to_size_type (s1.sze + n) })

/-- Source `reserve (sz)`. -/
def reserve {T : Type} (h : Heap T) (s : simplevec) (sz : Nat) : Option (St T) :=
  if sz ≤ s.res then some (h, s)
  else
    let sz1 := good_size sz
    let (h1, nbuf) := alloc h sz1
    match copy h1 nbuf (begin_ s) s.sze cop_new with
    | none => none
    | some h2 =>
      match dealloc h2 s with
      | none => none
      | some h3 => some (h3, { s with buf := nbuf, res := sz1 })

/-- The first loop of the slow path of `resize`: `while (sze < sz) construct (buf + sze++)`. -/
def resize_up {T : Type} [Inhabited T] : Nat → Heap T → simplevec → Nat → Option (St T)
  | 0, h, s, _ => some (h, s)
  | fuel + 1, h, s, sz =>
    if s.sze < sz then
      match construct h (s.buf.add s.sze) 1 with
      | none => none
      | some h1 => resize_up fuel h1 { s with sze := to_size_type (s.sze + 1) } sz
    else some (h, s)

/-- The second loop of the slow path of `resize`: `while (sze > sz) destruct (buf + --sze)`. -/
def resize_down {T : Type} : Nat → Heap T → simplevec → Nat → Option (St T)
  | 0, h, s, _ => some (h, s)
  | fuel + 1, h, s, sz =>
    if s.sze > sz then
      let s1 : simplevec := { s with sze := to_size_type (s.sze - 1) }
      match destruct h (s1.buf.add s1.sze) 1 with
      | none => none
      | some h1 => resize_down fuel h1 s1 sz
    else some (h, s)

/-- Source `resize (sz)`. -/
def resize {T : Type} [Inhabited T] (h : Heap T) (s : simplevec) (sz : Nat) : Option (St T) :=
  match reserve h s sz with
  | none => none
  | some (h1, s1) =>
    if is_simple_enough then some (h1, { s1 with sze := sz })
    else
      match resize_up SIZE_MOD h1 s1 sz with
      | none => none
      | some (h2, s2) => resize_down SIZE_MOD h2 s2 sz

/-- The helper `swap (a, b)`: `T t = a; a = (T)b; b = (U)t`; the new `a` and the new `b`. -/
def swap_values {α : Type} (a b : α) : α × α :=
  let t := a
  (b, t)

/-- Source `swap (t)`: `::swap (sze, t.sze); ::swap (res, t.res); ::swap (buf, t.buf)`;
the container itself and `t` after the call. -/
def swap (a b : simplevec) : simplevec × simplevec :=
  let x := swap_values a.sze b.sze
  let y := swap_values a.res b.res
  let z := swap_values a.buf b.buf
  (⟨x.1, y.1, z.1⟩, ⟨x.2, y.2, z.2⟩)

/-- Source `clear ()`. -/
def clear {T : Type} (h : Heap T) (s : simplevec) : Option (St T) :=
  match destruct h s.buf s.sze with
  | none => none
  | some h1 => some (h1, { s with sze := 0 })

/-- Source `push_back (t)`: `reserve (sze + 1); new (buf + sze++) T (t)`. -/
def push_back {T : Type} (h : Heap T) (s : simplevec) (t : T) : Option (St T) :=
  match reserve h s (to_size_type (s.sze + 1)) with
  | none => none
  | some (h1, s1) =>
    match store h1 (s1.buf.add s1.sze) (some t) with
    | none => none
    | some h2 => some (h2, { s1 with sze := to_size_type (s1.sze + 1) })

/-- Source `pop_back ()`: `destruct (buf + --sze)`. -/
def pop_back {T : Type} (h : Heap T) (s : simplevec) : Option (St T) :=
  let s1 : simplevec := { s with sze := to_size_type (s.sze - 1) }
  match destruct h (s1.buf.add s1.sze) 1 with
  | none => none
  | some h1 => some (h1, s1)

/-- The loop of `insert (pos, n, t)`, `for (i = 0; i < n; ++i) buf [at + i] = t`, with `i`
the current counter and `k` the iterations left (`n` at the start, as `n` is a `size_type`
value and `i` counts up from 0). -/
def fill_loop {T : Type} (t : T) (buf : Ptr) (at_ : Nat) :
    Nat → Nat → Heap T → Option (Heap T)
  | 0, _, h => some h
  | k + 1, i, h =>
    match store h (buf.add (to_size_type (at_ + i))) (some t) with
    | none => none
    | some h1 => fill_loop t buf at_ k (to_size_type (i + 1)) h1

/-- Source `insert (pos, n, t)`. -/
def insert_n {T : Type} [Inhabited T] (h : Heap T) (s : simplevec) (pos : Ptr) (n : Nat)
    (t : T) : Option (St T) :=
  let at_ := to_size_type (pos.diff (begin_ s))
  match ins h s pos n with
  | none => none
  | some (h1, s1) =>
    match fill_loop t s1.buf at_ n 0 h1 with
    | none => none
    | some h2 => some (h2, s1)

/-! The overload `insert (pos, t)` has no definition here: after `ins (pos, 1)` its body is
`buf [pos] = t`, a subscript of the pointer `buf` by the iterator `pos`, which is ill-formed
for every `T`, so that no program that calls it can be built. A single value is inserted
with `insert (pos, 1, t)`. -/

/-- Source `erase (first, last)`. -/
def erase_range {T : Type} (h : Heap T) (s : simplevec) (first last : Ptr) : Option (St T) :=
  let n := to_size_t (last.diff first)
  match copy_lower h last first (to_size_type ((end_ s).diff last)) cop_set with
  | none => none
  | some h1 =>
    let s1 : simplevec := { s with sze := to_size_type (to_size_t ((s.sze : Int) - n)) }
    match destruct h1 (s1.buf.add s1.sze) (to_size_type n) with
    | none => none
    | some h2 => some (h2, s1)

/-- Source `erase (pos)`: `if (pos != end ()) erase (pos, pos + 1)`. -/
def erase {T : Type} (h : Heap T) (s : simplevec) (pos : Ptr) : Option (St T) :=
  if pos ≠ end_ s then erase_range h s pos (pos.add 1) else some (h, s)

/-- The range overload `insert (pos, first, last)`: `n = last - first`, `at = pos - begin ()`
(computed, not used), `ins (pos, n)`, then `copy (pos, first, n, cop_set)` with the iterator
`pos` as it was passed in. -/
def insert_range {T : Type} [Inhabited T] (h : Heap T) (s : simplevec) (pos first last : Ptr) :
    Option (St T) :=
  let n := to_size_type (last.diff first)
  match ins h s pos n with
  | none => none
  | some (h1, s1) =>
    match copy h1 pos first n cop_set with
    | none => none
    | some h2 => some (h2, s1)

/-- The copy constructor `simplevec (const simplevec<T> &v)`: `sze(0), res(0), buf(0)`, then
`insert (begin (), v.begin (), v.end ())`. -/
def copy_ctor {T : Type} [Inhabited T] (h : Heap T) (v : simplevec) : Option (St T) :=
  insert_range h mk_empty (begin_ mk_empty) (begin_ v) (end_ v)

/-- The helper `min (a, b)`: `a < (T)b ? a : (T)b`. -/
def min_ (a b : Nat) : Nat := if a < b then a else b

/-- The library `memcmp` on `n` elements, for an element type whose value is its bit
pattern: 0 when the two ranges hold the same slots, non-zero (1 here, the sign is not
modelled) otherwise. A comparison of zero elements touches no memory. -/
def memcmp {T : Type} [DecidableEq T] (h : Heap T) (p q : Ptr) (n : Nat) : Option Int :=
  if n = 0 then some 0
  else
    match readRange h p n, readRange h q n with
    | some xs, some ys => some (if xs = ys then 0 else 1)
    | _, _ => none

/-- The comparison `operator == (v1, v2)`: `false` when the sizes differ, otherwise
`!v1.size () || !memcmp (&v1[0], &v2[0], v1.size () * sizeof (T))`. -/
def op_eq {T : Type} [DecidableEq T] (h : Heap T) (v1 v2 : simplevec) : Option Bool :=
  if size v1 ≠ size v2 then some false
  else if size v1 = 0 then some true
  else
    match memcmp h (v1.buf.add 0) (v2.buf.add 0) (size v1) with
    | none => none
    | some r => some (r == 0)

/-- The loop of `operator <` followed by its last line, with `i` the current counter and `k`
the iterations left (`minlast` at the start). An element read needs a constructed value. -/
def lt_loop {T : Type} [LT T] [DecidableRel (fun (x y : T) => x < y)] (h : Heap T)
    (v1 v2 : simplevec) : Nat → Nat → Option Bool
  | 0, _ => some (decide (size v1 < size v2))
  | k + 1, i =>
    match index h v1 (to_size_type i), index h v2 (to_size_type i) with
    | some (some x), some (some y) =>
      if x < y then some true
      else if y < x then some false
      else lt_loop h v1 v2 k (to_size_t (i + 1))
    | _, _ => none

/-- The comparison `operator < (v1, v2)`. -/
def op_lt {T : Type} [LT T] [DecidableRel (fun (x y : T) => x < y)] (h : Heap T)
    (v1 v2 : simplevec) : Option Bool :=
  lt_loop h v1 v2 (min_ (size v1) (size v2)) 0

/-- The body of `reserve (sz)` with the growth policy as a parameter `g` in the place of
`good_size`. -/
def reserve_with {T : Type} (g : Nat → Nat) (h : Heap T) (s : simplevec) (sz : Nat) :
    Option (St T) :=
  if sz ≤ s.res then some (h, s)
  else
    let sz1 := g sz
    let (h1, nbuf) := alloc h sz1
    match copy h1 nbuf (begin_ s) s.sze cop_new with
    | none => none
    | some h2 =>
      match dealloc h2 s with
      | none => none
      | some h3 => some (h3, { s with buf := nbuf, res := sz1 })

/-- The body of `ins (where, n)` with the growth policy as a parameter `g` in the place of
`good_size`. -/
def ins_with {T : Type} [Inhabited T] (g : Nat → Nat) (h : Heap T) (s : simplevec)
    (where_ : Ptr) (n : Nat) : Option (St T) :=
  let pos := to_size_type (where_.diff (begin_ s))
  let grown : Option (St T) :=
    if to_size_type (s.sze + n) > s.res then
      let res := g (to_size_type (s.sze + n))
      let (h1, nbuf) := alloc h res
      match copy h1 nbuf s.buf s.sze cop_new with
      | none => none
      | some h2 =>
        match dealloc h2 { s with res := res } with
        | none => none
        | some h3 => some (h3, { s with res := res, buf := nbuf })
    else some (h, s)
  match grown with
  | none => none
  | some (h1, s1) =>
    match construct h1 (s1.buf.add s1.sze) n with
    | none => none
    | some h2 =>
      match copy_higher h2 ((s1.buf.add pos).add n) (s1.buf.add pos)
          (to_size_type (s1.sze - pos)) cop_set with
      | none => none
      | some h3 => some (h3, { s1 with sze := to_size_type (s1.sze + n) })

/-! ## Vocabulary of the statements -/

variable {T : Type}

/-- The slots of block `b` (none for the null pointer or a released block). -/
def slots_of (h : Heap T) (b : Option Nat) : Block T := (blockAt h b).getD []

/-- The free store after block `b` is released. -/
def release (h : Heap T) (b : Option Nat) : Heap T :=
  match b with
  | none => h
  | some b => h.set b none

/-- The class invariant: `buf` is null or the start of a live block, that block has exactly
`res` slots (none for null), `sze ≤ res`, and `res` is a `size_type` value. -/
def valid (h : Heap T) (s : simplevec) : Prop :=
  s.buf.off = 0 ∧ s.sze ≤ s.res ∧ s.res < SIZE_MOD ∧
  (slots_of h s.buf.blk).length = s.res ∧
  (s.buf.blk ≠ none → (blockAt h s.buf.blk).isSome = true)

instance (h : Heap T) (s : simplevec) : Decidable (valid h s) := by
  unfold valid; infer_instance

/-- The free store after a container moves to a fresh block of `c` slots: the old block
is released, the new block holds the live elements followed by slots without values. -/
def grown (h : Heap T) (s : simplevec) (c : Nat) : Heap T :=
  release h s.buf.blk
    ++ [some ((slots_of h s.buf.blk).take s.sze ++ List.replicate (c - s.sze) none)]

/-- What an operation on the container `s` may change in the free store: no block is
removed from the table, every block other than the container's own is untouched, and the
container keeps its block or moves to a block that did not exist before. -/
def Frame (h : Heap T) (s : simplevec) (h' : Heap T) (s' : simplevec) : Prop :=
  h.length ≤ h'.length ∧
  (∀ b, b < h.length → some b ≠ s.buf.blk → blockAt h' (some b) = blockAt h (some b)) ∧
  (s'.buf.blk = s.buf.blk ∨ ∃ k, s'.buf.blk = some k ∧ h.length ≤ k)

/-- The block after the upward shift of `ins`. -/
def shifted (m : Block T) (p n sze : Nat) : Block T :=
  m.take (p + n) ++ (m.drop p).take (sze - p) ++ m.drop (sze + n)

/-- The block after `k` slots from index `a` on are set to the value `t`. -/
def filled (m : Block T) (a k : Nat) (t : T) : Block T :=
  m.take a ++ List.replicate k (some t) ++ m.drop (a + k)

/-- The block after the move made by `erase (first, last)`: the `sze - l` slots from index
`f` on are copied to index `l` on. -/
def lowered (m : Block T) (f l sze : Nat) : Block T :=
  m.take l ++ (m.drop f).take (sze - l) ++ m.drop sze

/-! ## Sequences of calls -/

/-- The calls `push_back (v0)`, ..., `push_back (v(n-1))`, in order. -/
def push_all : St T → List T → Option (St T)
  | st, [] => some st
  | st, v :: vs =>
    match push_back st.1 st.2 v with
    | none => none
    | some st1 => push_all st1 vs

/-- Two containers `a` and `b` living in one free store. -/
structure World (T : Type) where
  heap : Heap T
  a : simplevec
  b : simplevec

/-- A call of a public operation on the container `a` of a `World`; positions are given
as indices from `begin ()`, `insert_n` is `insert (pos, n, t)` and `swap` is `a.swap (b)`.
The range insert `insert (pos, first, last)` and `insert (pos, t)` are not among these
calls. -/
inductive Call (T : Type) where
  | reserve (n : Nat)
  | resize (n : Nat)
  | push_back (t : T)
  | pop_back
  | insert_n (p n : Nat) (t : T)
  | erase (p : Nat)
  | erase_range (f l : Nat)
  | clear
  | swap

/-- The precondition of a call on a container: a requested size stays below the element
limit, `pop_back` needs an element, a position is at most `size ()`, a range is ordered. -/
def Call.ok (s : simplevec) : Call T → Bool
  | .reserve n => decide (n < LIMIT)
  | .resize n => decide (n < LIMIT)
  | .push_back _ => decide (s.sze + 1 < LIMIT)
  | .pop_back => decide (0 < s.sze)
  | .insert_n p n _ => decide (p ≤ s.sze) && decide (s.sze + n < LIMIT)
  | .erase p => decide (p ≤ s.sze)
  | .erase_range f l => decide (f ≤ l) && decide (l ≤ s.sze)
  | .clear => true
  | .swap => true

/-- The container `a` replaced by the result of an operation on it. -/
def World.with_a (w : World T) : Option (St T) → Option (World T)
  | none => none
  | some (h, s) => some ⟨h, s, w.b⟩

/-- One call. -/
def Call.exec [Inhabited T] (w : World T) : Call T → Option (World T)
  | .reserve n => w.with_a (Estl.reserve w.heap w.a n)
  | .resize n => w.with_a (Estl.resize w.heap w.a n)
  | .push_back t => w.with_a (Estl.push_back w.heap w.a t)
  | .pop_back => w.with_a (Estl.pop_back w.heap w.a)
  | .insert_n p n t => w.with_a (Estl.insert_n w.heap w.a ((begin_ w.a).add p) n t)
  | .erase p => w.with_a (Estl.erase w.heap w.a ((begin_ w.a).add p))
  | .erase_range f l =>
    w.with_a (Estl.erase_range w.heap w.a ((begin_ w.a).add f) ((begin_ w.a).add l))
  | .clear => w.with_a (Estl.clear w.heap w.a)
  | .swap => some ⟨w.heap, (Estl.swap w.a w.b).1, (Estl.swap w.a w.b).2⟩

/-- A sequence of calls, in order. -/
def run [Inhabited T] : World T → List (Call T) → Option (World T)
  | w, [] => some w
  | w, c :: cs =>
    match c.exec w with
    | none => none
    | some w1 => run w1 cs

/-- Every call of the sequence meets its precondition in the state it is made in. Nothing
is asked of the calls after one that does not return. -/
def admissible [Inhabited T] : World T → List (Call T) → Bool
  | _, [] => true
  | w, c :: cs =>
    c.ok w.a &&
      (match c.exec w with
       | none => true
       | some w1 => admissible w1 cs)

/-- Two empty containers in the free store `h`. -/
def World.init (h : Heap T) : World T := ⟨h, mk_empty, mk_empty⟩

/-- The invariant of a `World`: both containers are valid and do not share a block. -/
def World.Inv (w : World T) : Prop :=
  valid w.heap w.a ∧ valid w.heap w.b ∧ (w.a.buf.blk = w.b.buf.blk → w.a.buf.blk = none)

/-- The container `s` holds the values `xs`: it is valid, its size is the length of `xs` and
its live slots hold the elements of `xs`, constructed, in order. -/
def holds (h : Heap T) (s : simplevec) (xs : List T) : Prop :=
  valid h s ∧ s.sze = xs.length ∧ (slots_of h s.buf.blk).take s.sze = xs.map some

/-- The block after the `n` slots from index `s` on are copied to index `d` on. -/
def moved (m : Block T) (d s n : Nat) : Block T :=
  m.take d ++ (m.drop s).take n ++ m.drop (d + n)

/-- The comparison made by `operator <`, on the values of the two containers. -/
def lt_lists [LT T] [DecidableRel (fun (x y : T) => x < y)] : List T → List T → Bool
  | [], [] => false
  | [], _ :: _ => true
  | _ :: _, [] => false
  | x :: xs, y :: ys => if x < y then true else if y < x then false else lt_lists xs ys

/-- The order of the specification: `xs` precedes `ys` when at the first index below both
lengths where the elements differ the element of `xs` is the smaller one, or when there is
no such index and `xs` is the shorter list. -/
def lex_before [LT T] (xs ys : List T) : Prop :=
  (∃ i, i < min xs.length ys.length ∧ (∀ j, j < i → xs[j]? = ys[j]?) ∧ xs[i]? ≠ ys[i]? ∧
      ∃ a b, xs[i]? = some a ∧ ys[i]? = some b ∧ a < b) ∨
  ((∀ i, i < min xs.length ys.length → xs[i]? = ys[i]?) ∧ xs.length < ys.length)

/-- An element copy inside one block: the slot `d` takes the contents of the slot `s`. -/
def copies_slot (op : Heap T → Ptr → Ptr → Option (Heap T)) (b : Option Nat) : Prop :=
  ∀ (h : Heap T) (m : Block T) (d s : Nat) (v : Option T), blockAt h b = some m →
    d < m.length → m[s]? = some v → op h ⟨b, d⟩ ⟨b, s⟩ = some (putBlock h b (m.set d v))

/-! ## Lemmas -/

theorem blockAt_lt {h : Heap T} {b : Nat} {m : Block T} (hb : blockAt h (some b) = some m) :
    b < h.length := by
  by_contra hlt
  have : h[b]? = none := List.getElem?_eq_none (by omega)
  simp [blockAt, this] at hb

theorem blockAt_putBlock_same {h : Heap T} {b : Option Nat} {m0 : Block T}
    (hb : blockAt h b = some m0) (m : Block T) : blockAt (putBlock h b m) b = some m := by
  cases b with
  | none => simp [blockAt] at hb
  | some b =>
    have hlt := blockAt_lt hb
    simp [blockAt, putBlock, List.getElem?_set, hlt]

theorem blockAt_putBlock_ne {h : Heap T} {b b' : Option Nat} (hne : b' ≠ b) (m : Block T) :
    blockAt (putBlock h b m) b' = blockAt h b' := by
  cases b with
  | none => rfl
  | some b =>
    cases b' with
    | none => rfl
    | some b' =>
      have : b ≠ b' := fun e => hne (by rw [e])
      simp [blockAt, putBlock, List.getElem?_set, this]

theorem length_putBlock (h : Heap T) (b : Option Nat) (m : Block T) :
    (putBlock h b m).length = h.length := by
  cases b <;> simp [putBlock]

theorem blockAt_append_left {h : Heap T} {b : Nat} (hb : b < h.length)
    (l : Heap T) : blockAt (h ++ l) (some b) = blockAt h (some b) := by
  simp [blockAt, List.getElem?_append_left hb]

theorem blockAt_append_new (h : Heap T) (m : Block T) :
    blockAt (h ++ [some m]) (some h.length) = some m := by
  simp [blockAt]

theorem blockAt_release_same (h : Heap T) (b : Option Nat) :
    blockAt (release h b) b = none := by
  cases b with
  | none => rfl
  | some b =>
    by_cases hlt : b < h.length
    · simp [blockAt, release, List.getElem?_set, hlt]
    · have : h[b]? = none := List.getElem?_eq_none (by omega)
      simp [blockAt, release, List.getElem?_set, hlt, this]

theorem blockAt_release_ne {h : Heap T} {b b' : Option Nat} (hne : b' ≠ b) :
    blockAt (release h b) b' = blockAt h b' := by
  cases b with
  | none => rfl
  | some b =>
    cases b' with
    | none => rfl
    | some b' =>
      have : b ≠ b' := fun e => hne (by rw [e])
      simp [blockAt, release, List.getElem?_set, this]

theorem length_release (h : Heap T) (b : Option Nat) : (release h b).length = h.length := by
  cases b <;> simp [release]

theorem putBlock_self {h : Heap T} {b : Option Nat} {m : Block T}
    (hb : blockAt h b = some m) : putBlock h b m = h := by
  cases b with
  | none => rfl
  | some b =>
    have hlt := blockAt_lt hb
    have hget : h[b]? = some (some m) := by
      simp only [blockAt] at hb
      cases hx : h[b]? with
      | none => simp [hx] at hb
      | some x => simp [hx] at hb; rw [hb]
    apply List.ext_getElem?
    intro i
    by_cases hi : b = i
    · subst hi; simp [putBlock, List.getElem?_set, hlt, hget]
    · simp [putBlock, List.getElem?_set, hi]

theorem store_ok {h : Heap T} {p : Ptr} {m : Block T} (hb : blockAt h p.blk = some m)
    (hlt : p.off < m.length) (v : Option T) :
    store h p v = some (putBlock h p.blk (m.set p.off v)) := by
  simp [store, hb, hlt]

theorem load_ok {h : Heap T} {p : Ptr} {m : Block T} (hb : blockAt h p.blk = some m) :
    load h p = m[p.off]? := by
  simp [load, hb]

theorem memmove_ok {h : Heap T} {dst src : Ptr} {ms md : Block T} {n : Nat}
    (hs : blockAt h src.blk = some ms) (hd : blockAt h dst.blk = some md)
    (hsb : src.off + n ≤ ms.length) (hdb : dst.off + n ≤ md.length) :
    memmove h dst src n
      = some (putBlock h dst.blk
          (md.take dst.off ++ (ms.drop src.off).take n ++ md.drop (dst.off + n))) := by
  by_cases hn : n = 0
  · subst hn
    simp [memmove, putBlock_self hd]
  · have hlen : ((ms.drop src.off).take n).length = n := by
      simp [List.length_take, List.length_drop]; omega
    simp [memmove, hn, readRange, writeRange, hs, hd, hsb, hlen, hdb]

theorem set_append_new (h : Heap T) (x y : Option (Block T)) :
    (h ++ [x]).set h.length y = h ++ [y] := by
  induction h with
  | nil => rfl
  | cons a t ih => simp [List.set, ih]

theorem set_append_old {h : Heap T} {b : Nat} (hb : b < h.length) (x y : Option (Block T)) :
    (h ++ [x]).set b y = h.set b y ++ [x] := by
  induction h generalizing b with
  | nil => simp at hb
  | cons a t ih =>
    cases b with
    | zero => rfl
    | succ b => simp at hb; simp [List.set, ih hb]

theorem begin_eq (s : simplevec) : begin_ s = s.buf := rfl

theorem valid_null {h : Heap T} {s : simplevec} (hv : valid h s) (hb : s.buf.blk = none) :
    s.res = 0 ∧ s.sze = 0 := by
  obtain ⟨_, h2, _, h4, _⟩ := hv
  rw [hb] at h4
  simp [slots_of, blockAt] at h4
  omega

theorem valid_block {h : Heap T} {s : simplevec} (hv : valid h s) {b : Nat}
    (hb : s.buf.blk = some b) :
    blockAt h (some b) = some (slots_of h (some b)) := by
  obtain ⟨_, _, _, _, h5⟩ := hv
  have := h5 (by simp [hb])
  rw [hb] at this
  cases hx : blockAt h (some b) with
  | none => simp [hx] at this
  | some m => simp [slots_of, hx]

theorem valid_buf {h : Heap T} {s : simplevec} (hv : valid h s) :
    s.buf = ⟨s.buf.blk, 0⟩ := by
  obtain ⟨h1, _⟩ := hv
  cases hs : s.buf with
  | mk b o => simp [hs] at h1; simp [h1]

theorem copy_fresh {h : Heap T} {s : simplevec} (hv : valid h s) {c : Nat}
    (hc : s.sze ≤ c) (op : Heap T → Ptr → Ptr → Option (Heap T)) :
    copy (h ++ [some (List.replicate c none)]) ⟨some h.length, 0⟩ s.buf s.sze op
      = some (h ++ [some ((slots_of h s.buf.blk).take s.sze
          ++ List.replicate (c - s.sze) none)]) := by
  by_cases hz : s.sze = 0
  · simp [copy, is_simple_enough, memcpy, hz]
  · have hv' := hv
    obtain ⟨h1, h2, h3, h4, h5⟩ := hv
    cases hb : s.buf.blk with
    | none => exact absurd (valid_null hv' hb).2 hz
    | some b =>
      have hblk := valid_block hv' hb
      have hlt := blockAt_lt hblk
      have hne : h.length ≠ b := by omega
      rw [hb] at h4
      have hsrc : blockAt (h ++ [some (List.replicate c none)]) s.buf.blk
          = some (slots_of h (some b)) := by
        rw [hb, blockAt_append_left hlt]; exact hblk
      have hdst : blockAt (h ++ [some (List.replicate c (none : Option T))])
          (Ptr.mk (some h.length) 0).blk = some (List.replicate c none) :=
        blockAt_append_new h _
      have hmm := memmove_ok (n := s.sze) hsrc hdst (by rw [h1, h4]; omega)
        (by simp; omega)
      simp only [copy, is_simple_enough, memcpy, hz, hb]
      simp only [if_true, if_false, Option.some.injEq, hne, false_and]
      rw [hmm]
      simp [putBlock, set_append_new, h1]

theorem dealloc_ok {h : Heap T} {s : simplevec} (hoff : s.buf.off = 0)
    (hb : s.buf.blk ≠ none → (blockAt h s.buf.blk).isSome = true) :
    dealloc h s = some (release h s.buf.blk) := by
  cases hblk : s.buf.blk with
  | none => simp [dealloc, destruct, is_simple_enough, operator_delete, hblk, release]
  | some b =>
    have := hb (by simp [hblk])
    rw [hblk] at this
    cases hx : blockAt h (some b) with
    | none => simp [hx] at this
    | some m =>
      simp [dealloc, destruct, is_simple_enough, operator_delete, hblk, release, hx, hoff]

theorem regrow_ok {h : Heap T} {s : simplevec} (hv : valid h s) {c : Nat}
    (hc : s.sze ≤ c) (op : Heap T → Ptr → Ptr → Option (Heap T)) (s' : simplevec)
    (hs' : s'.buf = s.buf) :
    (match copy (alloc h c).1 (alloc h c).2 s.buf s.sze op with
      | none => none
      | some h2 => dealloc h2 s') = some (grown h s c) := by
  have hv' := hv
  obtain ⟨h1, h2, h3, h4, h5⟩ := hv
  simp only [alloc, operator_new]
  rw [copy_fresh hv' hc]
  simp only
  rw [dealloc_ok (by rw [hs']; exact h1)]
  · rw [hs', grown]
    cases hb : s.buf.blk with
    | none => simp [release]
    | some b =>
      have hlt := blockAt_lt (valid_block hv' hb)
      simp [release, set_append_old hlt]
  · rw [hs']
    intro hne
    cases hb : s.buf.blk with
    | none => exact absurd hb hne
    | some b =>
      have hblk := valid_block hv' hb
      have hlt := blockAt_lt hblk
      rw [blockAt_append_left hlt, hblk]; rfl

theorem reserve_keep {h : Heap T} {s : simplevec} {sz : Nat} (hle : sz ≤ s.res) :
    reserve h s sz = some (h, s) := by
  simp [reserve, hle]

theorem reserve_grow {h : Heap T} {s : simplevec} (hv : valid h s) {sz : Nat}
    (hres : s.res < sz) (hc : s.sze ≤ good_size sz) :
    reserve h s sz
      = some (grown h s (good_size sz), ⟨s.sze, good_size sz, ⟨some h.length, 0⟩⟩) := by
  have hnot : ¬ sz ≤ s.res := by omega
  have hr := regrow_ok hv hc cop_new s rfl
  simp only [reserve, hnot, if_false, begin_eq]
  simp only [alloc, operator_new] at hr ⊢
  cases hcp : copy (h ++ [some (List.replicate (good_size sz) none)])
      ⟨some h.length, 0⟩ s.buf s.sze cop_new with
  | none => rw [hcp] at hr; simp at hr
  | some h2 =>
    rw [hcp] at hr
    simp only at hr ⊢
    rw [hr]

theorem ld_aux_eq_log2 (f x : Nat) (hx : x < 2 ^ f) : ld_aux f x = Nat.log2 x := by
  induction f generalizing x with
  | zero =>
    have : x = 0 := by simpa using hx
    subst this; rw [ld_aux, Nat.log2]; simp
  | succ f ih =>
    rw [ld_aux, Nat.log2]
    split
    · rw [ih]; rw [Nat.div_lt_iff_lt_mul (by norm_num)]; rw [pow_succ] at hx; exact hx
    · rfl

theorem ecb_ld32_eq_log2 {x : Nat} (hx : x < SIZE_MOD) : ecb_ld32 x = Nat.log2 x :=
  ld_aux_eq_log2 32 x (by simpa [SIZE_MOD] using hx)

theorem log2_lt_31 {n : Nat} (h1 : 1 ≤ n) (h2 : n < LIMIT) : Nat.log2 n < 31 := by
  rw [Nat.log2_lt (by omega)]
  simpa [LIMIT] using h2

theorem pow_log2_bounds {n : Nat} (h1 : 1 ≤ n) :
    2 ^ Nat.log2 n ≤ n ∧ n < 2 * 2 ^ Nat.log2 n := by
  refine ⟨Nat.log2_self_le (by omega), ?_⟩
  have := @Nat.lt_log2_self n
  rw [pow_succ] at this
  omega

theorem good_size_eq {n : Nat} (h1 : 1 ≤ n) (h2 : n < LIMIT) :
    good_size n = 2 * 2 ^ Nat.log2 n := by
  have hb := pow_log2_bounds h1
  have hn : n ≠ 0 := by omega
  have hlim : n < 2147483648 := by simpa [LIMIT] using h2
  simp only [good_size, hn, ne_eq, not_false_eq_true, if_true]
  rw [ecb_ld32_eq_log2 (by simp only [SIZE_MOD]; omega), Nat.shiftLeft_eq]
  simp only [ULONG_MOD, SIZE_MOD]
  omega

theorem good_size_bounds {n : Nat} (h1 : 1 ≤ n) (h2 : n < LIMIT) :
    n < good_size n ∧ good_size n ≤ 2 * n ∧ good_size n < SIZE_MOD := by
  have hb := pow_log2_bounds h1
  have hlim : n < 2147483648 := by simpa [LIMIT] using h2
  rw [good_size_eq h1 h2]
  simp only [SIZE_MOD]
  omega

theorem good_size_lt (n : Nat) : good_size n < SIZE_MOD := by
  unfold good_size
  split
  · exact Nat.mod_lt _ (by simp [SIZE_MOD])
  · simp [SIZE_MOD]

theorem Frame.refl (h : Heap T) (s : simplevec) : Frame h s h s :=
  ⟨le_refl _, fun _ _ _ => rfl, Or.inl rfl⟩

theorem Frame.trans {h h1 h2 : Heap T} {s s1 s2 : simplevec}
    (f1 : Frame h s h1 s1) (f2 : Frame h1 s1 h2 s2) : Frame h s h2 s2 := by
  obtain ⟨a1, a2, a3⟩ := f1
  obtain ⟨b1, b2, b3⟩ := f2
  refine ⟨le_trans a1 b1, ?_, ?_⟩
  · intro b hb hne
    have hne1 : some b ≠ s1.buf.blk := by
      rcases a3 with e | ⟨k, e, hk⟩
      · rw [e]; exact hne
      · rw [e]; intro hbk; injection hbk with hbk; omega
    rw [b2 b (by omega) hne1, a2 b hb hne]
  · rcases b3 with e | ⟨k, e, hk⟩
    · rw [e]; rcases a3 with e' | ⟨k', e', hk'⟩
      · exact Or.inl e'
      · exact Or.inr ⟨k', e', hk'⟩
    · exact Or.inr ⟨k, e, by omega⟩

/-- An update of the container's own block, in place. -/
theorem valid_putBlock {h : Heap T} {s : simplevec} (hv : valid h s) {m : Block T}
    (hm : m.length = s.res) {n : Nat} (hn : n ≤ s.res) :
    valid (putBlock h s.buf.blk m) ⟨n, s.res, s.buf⟩ ∧
    slots_of (putBlock h s.buf.blk m) s.buf.blk = m ∧
    Frame h s (putBlock h s.buf.blk m) ⟨n, s.res, s.buf⟩ := by
  have hv' := hv
  obtain ⟨h1, h2, h3, h4, h5⟩ := hv
  cases hb : s.buf.blk with
  | none =>
    have hz := (valid_null hv' hb).1
    have hm0 : m = [] := List.eq_nil_of_length_eq_zero (by omega)
    subst hm0
    refine ⟨⟨h1, hn, h3, ?_, ?_⟩, ?_, ?_⟩
    · simp [hb, putBlock, slots_of, blockAt]; omega
    · simp [hb]
    · simp [putBlock, slots_of, blockAt]
    · simpa [putBlock, hb] using Frame.refl h s
  | some b =>
    have hblk := valid_block hv' hb
    have hsame := blockAt_putBlock_same hblk m
    refine ⟨⟨h1, hn, h3, ?_, ?_⟩, ?_, ?_⟩
    · simp [hb, slots_of, hsame, hm]
    · simp [hb, hsame]
    · simp [slots_of, hsame]
    · refine ⟨by rw [length_putBlock], ?_, Or.inl rfl⟩
      intro b' _ hne
      exact blockAt_putBlock_ne (by rw [← hb]; exact hne) m

/-- A move of the container to a fresh block of `c` slots. -/
theorem valid_grown {h : Heap T} {s : simplevec} (hv : valid h s) {c : Nat}
    (hc : s.sze ≤ c) (hc2 : c < SIZE_MOD) :
    valid (grown h s c) ⟨s.sze, c, ⟨some h.length, 0⟩⟩ ∧
    slots_of (grown h s c) (some h.length)
      = (slots_of h s.buf.blk).take s.sze ++ List.replicate (c - s.sze) none ∧
    Frame h s (grown h s c) ⟨s.sze, c, ⟨some h.length, 0⟩⟩ := by
  have hv' := hv
  obtain ⟨h1, h2, h3, h4, h5⟩ := hv
  have hnew : blockAt (grown h s c) (some h.length)
      = some ((slots_of h s.buf.blk).take s.sze ++ List.replicate (c - s.sze) none) := by
    have := blockAt_append_new (release h s.buf.blk)
      ((slots_of h s.buf.blk).take s.sze ++ List.replicate (c - s.sze) none)
    rw [length_release] at this
    exact this
  refine ⟨⟨rfl, hc, hc2, ?_, ?_⟩, ?_, ?_⟩
  · simp only [slots_of, hnew, Option.getD_some]
    simp only [slots_of] at h4
    simp [List.length_take, h4]; omega
  · intro _; simp [hnew]
  · simp [slots_of, hnew]
  · refine ⟨by simp [grown, length_release], ?_, Or.inr ⟨h.length, rfl, le_refl _⟩⟩
    intro b hb hne
    rw [grown, blockAt_append_left (by rw [length_release]; exact hb)]
    exact blockAt_release_ne hne

theorem index_eq_slots {h : Heap T} {s : simplevec} (hoff : s.buf.off = 0) (i : Nat) :
    index h s i = (slots_of h s.buf.blk)[i]? := by
  unfold index load slots_of Ptr.add
  simp only [hoff, Nat.zero_add]
  cases blockAt h s.buf.blk <;> simp

theorem index_congr {h h' : Heap T} {s s' : simplevec} (hv : valid h s) (hv' : valid h' s')
    {n : Nat} (ht : (slots_of h' s'.buf.blk).take n = (slots_of h s.buf.blk).take n)
    {i : Nat} (hi : i < n) : index h' s' i = index h s i := by
  rw [index_eq_slots hv.1, index_eq_slots hv'.1]
  have h1 : ((slots_of h' s'.buf.blk).take n)[i]? = (slots_of h' s'.buf.blk)[i]? := by
    rw [List.getElem?_take]; simp [hi]
  have h2 : ((slots_of h s.buf.blk).take n)[i]? = (slots_of h s.buf.blk)[i]? := by
    rw [List.getElem?_take]; simp [hi]
  rw [← h1, ← h2, ht]

theorem valid_mk_empty (h : Heap T) : valid h mk_empty := by
  simp [valid, mk_empty, null, slots_of, blockAt, SIZE_MOD]

/-- The result of `reserve`, for a request that the new capacity can hold. -/
theorem reserve_spec {h : Heap T} {s : simplevec} (hv : valid h s) {sz : Nat}
    (hsz : sz ≤ s.res ∨ s.sze ≤ good_size sz) :
    ∃ h' s', reserve h s sz = some (h', s') ∧ valid h' s' ∧ Frame h s h' s' ∧
      s'.sze = s.sze ∧ s'.res = (if sz ≤ s.res then s.res else good_size sz) ∧
      s'.buf.off = 0 ∧
      (if sz ≤ s.res then h' = h ∧ s' = s
       else slots_of h' s'.buf.blk
        = (slots_of h s.buf.blk).take s.sze ++ List.replicate (good_size sz - s.sze) none) := by
  by_cases hle : sz ≤ s.res
  · exact ⟨h, s, reserve_keep hle, hv, Frame.refl h s, rfl, by simp [hle], hv.1,
      by simp [hle]⟩
  · have hc : s.sze ≤ good_size sz := by
      rcases hsz with h1 | h1
      · exact absurd h1 hle
      · exact h1
    obtain ⟨g1, g2, g3⟩ := valid_grown hv hc (good_size_lt sz)
    exact ⟨_, _, reserve_grow hv (by omega) hc, g1, g3, rfl, by simp [hle], rfl,
      by simp only [hle, if_false]; exact g2⟩

theorem reserve_take {h : Heap T} {s : simplevec} (hv : valid h s) {sz : Nat} {h' : Heap T}
    {s' : simplevec}
    (hr : if sz ≤ s.res then h' = h ∧ s' = s
       else slots_of h' s'.buf.blk
        = (slots_of h s.buf.blk).take s.sze ++ List.replicate (good_size sz - s.sze) none) :
    (slots_of h' s'.buf.blk).take s.sze = (slots_of h s.buf.blk).take s.sze := by
  split at hr
  · rw [hr.1, hr.2]
  · rw [hr]
    have hlen : ((slots_of h s.buf.blk).take s.sze).length = s.sze := by
      rw [List.length_take, hv.2.2.2.1]; exact Nat.min_eq_left hv.2.1
    rw [List.take_append_of_le_length (by omega)]
    rw [List.take_take]; simp

theorem to_size_type_of_lt {n : Nat} (hn : n < SIZE_MOD) : to_size_type (n : Int) = n := by
  simp only [SIZE_MOD] at hn
  unfold to_size_type
  omega

theorem valid_blockAt {h : Heap T} {s : simplevec} (hv : valid h s) (hres : 0 < s.res) :
    blockAt h s.buf.blk = some (slots_of h s.buf.blk) := by
  cases hb : s.buf.blk with
  | none => have := (valid_null hv hb).1; omega
  | some b => exact valid_block hv hb

theorem take_succ_set {α : Type} (m : List α) (i : Nat) (x : α) (hi : i < m.length) :
    (m.set i x).take (i + 1) = m.take i ++ [x] := by
  induction m generalizing i with
  | nil => simp at hi
  | cons a t ih =>
    cases i with
    | zero => simp
    | succ i => simp at hi; simp [ih i hi]

/-- The result of `push_back` below the element limit. -/
theorem push_back_spec {h : Heap T} {s : simplevec} (hv : valid h s) (t : T)
    (hlim : s.sze + 1 < LIMIT) :
    ∃ h' s', push_back h s t = some (h', s') ∧ valid h' s' ∧ Frame h s h' s' ∧
      s'.sze = s.sze + 1 ∧
      s'.res = (if s.sze + 1 ≤ s.res then s.res else good_size (s.sze + 1)) ∧
      (slots_of h' s'.buf.blk).take (s.sze + 1)
        = (slots_of h s.buf.blk).take s.sze ++ [some t] := by
  have hlim' : s.sze + 1 < 2147483648 := by simpa [LIMIT] using hlim
  have hcast : to_size_type ((s.sze : Int) + 1) = s.sze + 1 := by
    have := to_size_type_of_lt (n := s.sze + 1) (by simp only [SIZE_MOD]; omega)
    simpa using this
  have hgs := good_size_bounds (n := s.sze + 1) (by omega) hlim
  obtain ⟨h1, s1, hr, hv1, hf1, hsz1, hres1, hoff1, hsl1⟩ :=
    @reserve_spec T h s hv (s.sze + 1) (Or.inr (by omega))
  have htake := reserve_take hv hsl1
  have hres1' : s.sze + 1 ≤ s1.res := by
    rw [hres1]; split <;> omega
  have hblk := valid_blockAt hv1 (by omega)
  have hlen : (slots_of h1 s1.buf.blk).length = s1.res := hv1.2.2.2.1
  have hst : store h1 ⟨s1.buf.blk, s.sze⟩ (some t)
      = some (putBlock h1 s1.buf.blk ((slots_of h1 s1.buf.blk).set s.sze (some t))) :=
    store_ok (p := ⟨s1.buf.blk, s.sze⟩) hblk (by simp only [hlen]; omega) (some t)
  obtain ⟨p1, p2, p3⟩ := valid_putBlock hv1
    (m := (slots_of h1 s1.buf.blk).set s.sze (some t)) (by simp [hlen])
    (n := s.sze + 1) hres1'
  refine ⟨_, _, ?_, p1, hf1.trans p3, rfl, hres1, ?_⟩
  · simp only [push_back, hcast, hr, hsz1, Ptr.add, hoff1, Nat.zero_add, hst]
  · simp only [p2]
    rw [take_succ_set _ _ _ (by omega), htake]

theorem dealloc_fresh {h : Heap T} {s : simplevec} (hv : valid h s) (s' : simplevec)
    (hs' : s'.buf = s.buf) (x : Block T) :
    dealloc (h ++ [some x]) s' = some (release h s.buf.blk ++ [some x]) := by
  rw [dealloc_ok (by rw [hs']; exact hv.1)]
  · rw [hs']
    cases hb : s.buf.blk with
    | none => simp [release]
    | some b =>
      have hlt := blockAt_lt (valid_block hv hb)
      simp [release, set_append_old hlt]
  · rw [hs']
    intro hne
    cases hb : s.buf.blk with
    | none => exact absurd hb hne
    | some b =>
      have hblk := valid_block hv hb
      have hlt := blockAt_lt hblk
      rw [blockAt_append_left hlt, hblk]; rfl

/-- The upward shift of `ins`: the `s.sze - p` slots from `p` on move up by `n`. -/
theorem shift_up_ok {h : Heap T} {s : simplevec} (hv : valid h s) {p n : Nat}
    (hp : p ≤ s.sze) (hn : s.sze + n ≤ s.res)
    (op : Heap T → Ptr → Ptr → Option (Heap T)) :
    copy_higher h ⟨s.buf.blk, p + n⟩ ⟨s.buf.blk, p⟩ (s.sze - p) op
      = some (putBlock h s.buf.blk
          ((slots_of h s.buf.blk).take (p + n)
            ++ ((slots_of h s.buf.blk).drop p).take (s.sze - p)
            ++ (slots_of h s.buf.blk).drop (s.sze + n))) := by
  have hlen : (slots_of h s.buf.blk).length = s.res := hv.2.2.2.1
  cases hb : s.buf.blk with
  | none =>
    have := valid_null hv hb
    have hz : s.sze - p = 0 := by omega
    simp [copy_higher, is_simple_enough, memmove, hz, putBlock]
  | some b =>
    have hblk := valid_block hv hb
    rw [hb] at hlen
    have hmm := @memmove_ok T h ⟨some b, p + n⟩ ⟨some b, p⟩ _ _ (s.sze - p)
      hblk hblk (by simp only [hlen]; omega) (by simp only [hlen]; omega)
    have he : p + n + (s.sze - p) = s.sze + n := by omega
    simp only [copy_higher, is_simple_enough, if_true, hmm, he]

theorem length_shifted (m : Block T) {p n sze : Nat} (hp : p ≤ sze) (hn : sze + n ≤ m.length) :
    (shifted m p n sze).length = m.length := by
  simp [shifted, List.length_take, List.length_drop]; omega

theorem diff_add (q : Ptr) (p : Nat) (hp : p < SIZE_MOD) :
    to_size_type ((q.add p).diff q) = p := by
  simp only [SIZE_MOD] at hp
  simp only [Ptr.diff, Ptr.add, to_size_type]
  omega

/-- The result of `ins` at index `p` below the element limit. -/
theorem ins_spec [Inhabited T] {h : Heap T} {s : simplevec} (hv : valid h s) {p n : Nat}
    (hp : p ≤ s.sze) (hlim : s.sze + n < LIMIT) :
    ∃ h' s' m1, ins h s ((begin_ s).add p) n = some (h', s') ∧ valid h' s' ∧
      Frame h s h' s' ∧ s'.sze = s.sze + n ∧
      s'.res = (if s.sze + n ≤ s.res then s.res else good_size (s.sze + n)) ∧
      s'.buf.off = 0 ∧ m1.length = s'.res ∧
      m1.take s.sze = (slots_of h s.buf.blk).take s.sze ∧
      slots_of h' s'.buf.blk = shifted m1 p n s.sze := by
  have hlim' : s.sze + n < 2147483648 := by simpa [LIMIT] using hlim
  have hcast : to_size_type ((s.sze : Int) + (n : Int)) = s.sze + n := by
    have := to_size_type_of_lt (n := s.sze + n) (by simp only [SIZE_MOD]; omega)
    simpa using this
  have hpos : to_size_type (((begin_ s).add p).diff (begin_ s)) = p :=
    diff_add _ _ (by simp only [SIZE_MOD]; omega)
  have hsub : to_size_type ((s.sze : Int) - (p : Int)) = s.sze - p := by
    unfold to_size_type; omega
  have hoff := hv.1
  have hlen : (slots_of h s.buf.blk).length = s.res := hv.2.2.2.1
  by_cases hgrow : s.sze + n ≤ s.res
  · -- no reallocation
    have hng : ¬ (s.sze + n > s.res) := by omega
    have hsh := shift_up_ok hv hp hgrow (cop_set (T := T))
    obtain ⟨p1, p2, p3⟩ := valid_putBlock hv
      (m := shifted (slots_of h s.buf.blk) p n s.sze)
      (by rw [length_shifted _ hp (by omega), hlen]) (n := s.sze + n) hgrow
    refine ⟨_, _, slots_of h s.buf.blk, ?_, p1, p3, rfl, by simp [hgrow], hoff, hlen, rfl, p2⟩
    generalize (begin_ s).add p = w at hpos ⊢
    simp only [ins, hcast, hpos, hsub, hng, if_false, construct, is_simple_enough,
      Bool.not_true, Bool.false_eq_true, Ptr.add, hoff, Nat.zero_add]
    rw [hsh]; rfl
  · -- reallocation
    have hg : s.sze + n > s.res := by omega
    have h1n : 1 ≤ s.sze + n := by omega
    have hgs := good_size_bounds h1n hlim
    have hc : s.sze ≤ good_size (s.sze + n) := by omega
    obtain ⟨g1, g2, g3⟩ := valid_grown hv hc hgs.2.2
    have hsh := shift_up_ok g1 (p := p) (n := n) hp (by simp only; omega) (cop_set (T := T))
    have hlen1 : (slots_of (grown h s (good_size (s.sze + n))) (some h.length)).length
        = good_size (s.sze + n) := g1.2.2.2.1
    obtain ⟨p1, p2, p3⟩ := valid_putBlock g1
      (m := shifted (slots_of (grown h s (good_size (s.sze + n))) (some h.length)) p n s.sze)
      (by rw [length_shifted _ hp (by rw [hlen1]; omega), hlen1]) (n := s.sze + n)
      (by simp only; omega)
    refine ⟨_, _, slots_of (grown h s (good_size (s.sze + n))) (some h.length), ?_, p1,
      g3.trans p3, rfl, by simp [hgrow], rfl, hlen1, ?_, p2⟩
    · generalize (begin_ s).add p = w at hpos ⊢
      simp only [ins, hcast, hpos, hsub, hg, if_true, alloc, operator_new,
        copy_fresh hv hc, dealloc_fresh hv { s with res := good_size (s.sze + n) } rfl,
        construct, is_simple_enough, Bool.not_true, Bool.false_eq_true, if_false, Ptr.add,
        Nat.zero_add]
      simp only [grown] at hsh
      rw [hsh]; rfl
    · rw [g2]
      have : ((slots_of h s.buf.blk).take s.sze).length = s.sze := by
        rw [List.length_take, hlen]; exact Nat.min_eq_left hv.2.1
      rw [List.take_append_of_le_length (by omega), List.take_take]; simp

theorem length_filled (m : Block T) {a k : Nat} (t : T) (hk : a + k ≤ m.length) :
    (filled m a k t).length = m.length := by
  simp [filled, List.length_take, List.length_drop]; omega

theorem getElem?_filled (m : Block T) (a k : Nat) (t : T) (hk : a + k ≤ m.length) (i : Nat) :
    (filled m a k t)[i]? = if a ≤ i ∧ i < a + k then some (some t) else m[i]? := by
  have hlen : (m.take a).length = a := by rw [List.length_take]; omega
  unfold filled
  by_cases h1 : i < a
  · rw [List.append_assoc, List.getElem?_append_left (by omega), List.getElem?_take]
    have : ¬ (a ≤ i ∧ i < a + k) := by omega
    simp [h1, this]
  · by_cases h2 : i < a + k
    · rw [List.getElem?_append_left (by simp [hlen]; omega),
        List.getElem?_append_right (by omega), List.getElem?_replicate, hlen]
      have h3 : i - a < k := by omega
      have h4 : a ≤ i ∧ i < a + k := by omega
      simp [h3, h4]
    · rw [List.getElem?_append_right (by simp [hlen]; omega), List.getElem?_drop]
      have h4 : ¬ (a ≤ i ∧ i < a + k) := by omega
      simp only [List.length_append, hlen, List.length_replicate, h4, if_false]
      congr 1; omega

theorem filled_step (m : Block T) (a k : Nat) (t : T) (hk : a + (k + 1) ≤ m.length) :
    filled (m.set a (some t)) (a + 1) k t = filled m a (k + 1) t := by
  apply List.ext_getElem?
  intro i
  rw [getElem?_filled _ _ _ _ (by simp; omega), getElem?_filled _ _ _ _ hk,
    List.getElem?_set]
  by_cases h1 : a = i
  · subst h1
    have h2 : ¬ (a + 1 ≤ a ∧ a < a + 1 + k) := by omega
    have h3 : a ≤ a ∧ a < a + (k + 1) := by omega
    have h4 : a < m.length := by omega
    simp [h2, h3, h4]
  · by_cases h2 : a + 1 ≤ i ∧ i < a + 1 + k
    · have h3 : a ≤ i ∧ i < a + (k + 1) := by omega
      simp [h2, h3]
    · have h3 : ¬ (a ≤ i ∧ i < a + (k + 1)) := by omega
      simp [h1, h2, h3]

theorem putBlock_putBlock (h : Heap T) (b : Option Nat) (x y : Block T) :
    putBlock (putBlock h b x) b y = putBlock h b y := by
  cases b with
  | none => rfl
  | some b => simp [putBlock, List.set_set]

theorem fill_loop_ok (t : T) (b : Option Nat) (a : Nat) :
    ∀ (k i : Nat) (h : Heap T) (m : Block T), blockAt h b = some m →
      a + i + k ≤ m.length → m.length < SIZE_MOD →
      fill_loop t ⟨b, 0⟩ a k i h = some (putBlock h b (filled m (a + i) k t)) := by
  intro k
  induction k with
  | zero =>
    intro i h m hb hk _
    have : filled m (a + i) 0 t = m := by simp [filled]
    rw [this, putBlock_self hb]; rfl
  | succ k ih =>
    intro i h m hb hk hlt
    have hlt' : m.length < 4294967296 := by simpa [SIZE_MOD] using hlt
    have hc1 : to_size_type ((a : Int) + (i : Int)) = a + i := by
      unfold to_size_type; omega
    have hc2 : to_size_type ((i : Int) + 1) = i + 1 := by
      unfold to_size_type; omega
    have hst : store h ⟨b, a + i⟩ (some t)
        = some (putBlock h b (m.set (a + i) (some t))) :=
      store_ok (p := ⟨b, a + i⟩) hb (by simp only; omega) (some t)
    have hb1 := blockAt_putBlock_same hb (m.set (a + i) (some t))
    have := ih (i + 1) (putBlock h b (m.set (a + i) (some t))) _ hb1
      (by simp; omega) (by simpa using hlt)
    simp only [fill_loop, hc1, hc2, Ptr.add, Nat.zero_add, hst]
    rw [this, putBlock_putBlock]
    have he : a + (i + 1) = a + i + 1 := by omega
    rw [he, filled_step m (a + i) k t (by omega)]

theorem getElem?_of_take_eq {α : Type} {a b : List α} {k : Nat} (ht : a.take k = b.take k)
    {i : Nat} (hi : i < k) : a[i]? = b[i]? := by
  have h1 : (a.take k)[i]? = a[i]? := by rw [List.getElem?_take]; simp [hi]
  have h2 : (b.take k)[i]? = b[i]? := by rw [List.getElem?_take]; simp [hi]
  rw [← h1, ← h2, ht]

/-- The result of `insert (pos, n, t)` at index `p` below the element limit. -/
theorem insert_n_spec [Inhabited T] {h : Heap T} {s : simplevec} (hv : valid h s) {p n : Nat}
    (t : T) (hp : p ≤ s.sze) (hlim : s.sze + n < LIMIT) :
    ∃ h' s' m1, insert_n h s ((begin_ s).add p) n t = some (h', s') ∧ valid h' s' ∧
      Frame h s h' s' ∧ s'.sze = s.sze + n ∧
      s'.res = (if s.sze + n ≤ s.res then s.res else good_size (s.sze + n)) ∧
      m1.length = s'.res ∧
      m1.take s.sze = (slots_of h s.buf.blk).take s.sze ∧
      slots_of h' s'.buf.blk = filled (shifted m1 p n s.sze) p n t := by
  obtain ⟨h1, s1, m1, hins, hv1, hf1, hsz1, hres1, hoff1, hm1, htk, hsl⟩ :=
    ins_spec hv hp hlim (n := n)
  have hlim' : s.sze + n < 2147483648 := by simpa [LIMIT] using hlim
  have hpos : to_size_type (((begin_ s).add p).diff (begin_ s)) = p :=
    diff_add _ _ (by simp only [SIZE_MOD]; omega)
  have hbuf : s1.buf = ⟨s1.buf.blk, 0⟩ := valid_buf hv1
  have hle : s1.sze ≤ s1.res := hv1.2.1
  have hlsh : (shifted m1 p n s.sze).length = s1.res := by
    rw [length_shifted _ hp (by omega), hm1]
  cases hb : s1.buf.blk with
  | none =>
    have hz := valid_null hv1 hb
    have hn0 : n = 0 := by omega
    subst hn0
    have hm0 : m1 = [] := List.eq_nil_of_length_eq_zero (by omega)
    refine ⟨h1, s1, m1, ?_, hv1, hf1, hsz1, hres1, hm1, htk, ?_⟩
    · simp only [insert_n, hins, fill_loop]
    · rw [hb] at hsl
      rw [hb, hsl]; simp [filled]
  | some b =>
    have hblk := valid_block hv1 hb
    rw [hb] at hsl
    have hfill := fill_loop_ok t (some b) p n 0 h1 _ hblk
      (by rw [hsl, hlsh]; omega) (by rw [hsl, hlsh]; exact hv1.2.2.1)
    rw [hsl] at hfill
    have hv1' := hv1
    obtain ⟨p1, p2, p3⟩ := valid_putBlock hv1 (m := filled (shifted m1 p n s.sze) p n t)
      (by rw [length_filled _ _ (by omega), hlsh]) (n := s1.sze) hle
    rw [hb] at p1 p2 p3
    have hs1 : (⟨s1.sze, s1.res, s1.buf⟩ : simplevec) = s1 := rfl
    rw [hs1] at p1 p3
    refine ⟨_, s1, m1, ?_, p1, hf1.trans p3, hsz1, hres1, hm1, htk, ?_⟩
    · generalize (begin_ s).add p = w at hpos hins ⊢
      simp only [insert_n, hins, hpos]
      rw [hbuf, hb, hfill]; rfl
    · rw [hb]; exact p2

/-- A change of the size field alone. -/
theorem valid_resize {h : Heap T} {s : simplevec} (hv : valid h s) {n : Nat} (hn : n ≤ s.res) :
    valid h ⟨n, s.res, s.buf⟩ ∧ Frame h s h ⟨n, s.res, s.buf⟩ :=
  ⟨⟨hv.1, hn, hv.2.2.1, hv.2.2.2.1, hv.2.2.2.2⟩, le_refl _, fun _ _ _ => rfl, Or.inl rfl⟩

/-- The result of `resize` below the element limit. -/
theorem resize_spec [Inhabited T] {h : Heap T} {s : simplevec} (hv : valid h s) {sz : Nat}
    (hlim : sz < LIMIT) :
    ∃ h' s', resize h s sz = some (h', s') ∧ valid h' s' ∧ Frame h s h' s' ∧
      s'.sze = sz ∧
      s'.res = (if sz ≤ s.res then s.res else good_size sz) ∧
      (slots_of h' s'.buf.blk).take s.sze = (slots_of h s.buf.blk).take s.sze ∧
      (¬ sz ≤ s.res → slots_of h' s'.buf.blk
        = (slots_of h s.buf.blk).take s.sze ++ List.replicate (good_size sz - s.sze) none) ∧
      (sz ≤ s.res → h' = h ∧ s'.buf = s.buf) := by
  have hsz : sz ≤ s.res ∨ s.sze ≤ good_size sz := by
    by_cases hle : sz ≤ s.res
    · exact Or.inl hle
    · have := good_size_bounds (n := sz) (by omega) hlim
      have := hv.2.1
      exact Or.inr (by omega)
  obtain ⟨h1, s1, hr, hv1, hf1, hsz1, hres1, hoff1, hsl1⟩ := reserve_spec hv hsz
  have htake := reserve_take hv hsl1
  have hcap : sz ≤ s1.res := by
    rw [hres1]; split
    · assumption
    · have := good_size_bounds (n := sz) (by omega) hlim
      omega
  obtain ⟨q1, q2⟩ := valid_resize hv1 hcap
  refine ⟨h1, ⟨sz, s1.res, s1.buf⟩, ?_, q1, hf1.trans q2, rfl, hres1, htake, ?_, ?_⟩
  · simp only [resize, hr, is_simple_enough, if_true]
  · intro hle; simpa [hle] using hsl1
  · intro hle
    simp only [hle, if_true] at hsl1
    exact ⟨hsl1.1, by rw [hsl1.2]⟩

/-- The result of `pop_back` on a container that is not empty. -/
theorem pop_back_spec {h : Heap T} {s : simplevec} (hv : valid h s) (hpos : 0 < s.sze) :
    pop_back h s = some (h, ⟨s.sze - 1, s.res, s.buf⟩) ∧
    valid h ⟨s.sze - 1, s.res, s.buf⟩ ∧ Frame h s h ⟨s.sze - 1, s.res, s.buf⟩ := by
  have h2 := hv.2.1
  have h3 : s.res < 4294967296 := by simpa [SIZE_MOD] using hv.2.2.1
  have hc : to_size_type ((s.sze : Int) - 1) = s.sze - 1 := by
    unfold to_size_type; omega
  obtain ⟨q1, q2⟩ := valid_resize hv (n := s.sze - 1) (by omega)
  refine ⟨?_, q1, q2⟩
  simp [pop_back, destruct, is_simple_enough, hc]

/-- The result of `clear`. -/
theorem clear_spec {h : Heap T} {s : simplevec} (hv : valid h s) :
    clear h s = some (h, ⟨0, s.res, s.buf⟩) ∧
    valid h ⟨0, s.res, s.buf⟩ ∧ Frame h s h ⟨0, s.res, s.buf⟩ := by
  obtain ⟨q1, q2⟩ := valid_resize hv (n := 0) (by omega)
  refine ⟨?_, q1, q2⟩
  simp [clear, destruct, is_simple_enough]

theorem length_lowered (m : Block T) {f l sze : Nat} (hf : f ≤ l) (hl : l ≤ sze)
    (hs : sze ≤ m.length) : (lowered m f l sze).length = m.length := by
  simp [lowered, List.length_take, List.length_drop]; omega

theorem getElem?_lowered (m : Block T) {f l sze : Nat} (hf : f ≤ l) (hl : l ≤ sze)
    (hs : sze ≤ m.length) (i : Nat) :
    (lowered m f l sze)[i]? = if l ≤ i ∧ i < sze then m[i - (l - f)]? else m[i]? := by
  have hlen : (m.take l).length = l := by rw [List.length_take]; omega
  have hlen2 : ((m.drop f).take (sze - l)).length = sze - l := by
    rw [List.length_take, List.length_drop]; omega
  unfold lowered
  by_cases h1 : i < l
  · rw [List.append_assoc, List.getElem?_append_left (by omega), List.getElem?_take]
    have : ¬ (l ≤ i ∧ i < sze) := by omega
    simp [h1, this]
  · by_cases h2 : i < sze
    · rw [List.getElem?_append_left (by simp only [List.length_append, hlen, hlen2]; omega),
        List.getElem?_append_right (by omega), List.getElem?_take, List.getElem?_drop, hlen]
      have h3 : i - l < sze - l := by omega
      have h4 : l ≤ i ∧ i < sze := by omega
      simp only [h3, h4, if_true, and_self]
      congr 1; omega
    · rw [List.getElem?_append_right (by simp only [List.length_append, hlen, hlen2]; omega),
        List.getElem?_drop]
      have h4 : ¬ (l ≤ i ∧ i < sze) := by omega
      simp only [List.length_append, hlen, hlen2, h4, if_false]
      congr 1; omega

/-- The result of `erase (first, last)` for indices `f ≤ l ≤ size`. -/
theorem erase_range_spec {h : Heap T} {s : simplevec} (hv : valid h s) {f l : Nat}
    (hf : f ≤ l) (hl : l ≤ s.sze) :
    erase_range h s ((begin_ s).add f) ((begin_ s).add l)
      = some (putBlock h s.buf.blk (lowered (slots_of h s.buf.blk) f l s.sze),
          ⟨s.sze - (l - f), s.res, s.buf⟩) ∧
    valid (putBlock h s.buf.blk (lowered (slots_of h s.buf.blk) f l s.sze))
      ⟨s.sze - (l - f), s.res, s.buf⟩ ∧
    slots_of (putBlock h s.buf.blk (lowered (slots_of h s.buf.blk) f l s.sze)) s.buf.blk
      = lowered (slots_of h s.buf.blk) f l s.sze ∧
    Frame h s (putBlock h s.buf.blk (lowered (slots_of h s.buf.blk) f l s.sze))
      ⟨s.sze - (l - f), s.res, s.buf⟩ := by
  have h2 := hv.2.1
  have h3 : s.res < 4294967296 := by simpa [SIZE_MOD] using hv.2.2.1
  have hoff := hv.1
  have hlen : (slots_of h s.buf.blk).length = s.res := hv.2.2.2.1
  obtain ⟨p1, p2, p3⟩ := valid_putBlock hv (m := lowered (slots_of h s.buf.blk) f l s.sze)
    (by rw [length_lowered _ hf hl (by omega), hlen]) (n := s.sze - (l - f)) (by omega)
  refine ⟨?_, p1, p2, p3⟩
  have hn : to_size_t (((begin_ s).add l).diff ((begin_ s).add f)) = l - f := by
    simp only [to_size_t, Ptr.diff, Ptr.add]; omega
  have hc : to_size_type ((end_ s).diff ((begin_ s).add l)) = s.sze - l := by
    simp only [to_size_type, Ptr.diff, Ptr.add, end_, begin_]; omega
  have hsz : to_size_type (to_size_t ((s.sze : Int) - ((l - f : Nat) : Int)))
      = s.sze - (l - f) := by
    simp only [to_size_type, to_size_t]; omega
  have hmm : memmove h ⟨s.buf.blk, l⟩ ⟨s.buf.blk, f⟩ (s.sze - l)
      = some (putBlock h s.buf.blk (lowered (slots_of h s.buf.blk) f l s.sze)) := by
    cases hb : s.buf.blk with
    | none =>
      have := valid_null hv hb
      have hz : s.sze - l = 0 := by omega
      simp [memmove, hz, putBlock]
    | some b =>
      have hblk := valid_block hv hb
      rw [hb] at hlen
      have := @memmove_ok T h ⟨some b, l⟩ ⟨some b, f⟩ _ _ (s.sze - l)
        hblk hblk (by simp only [hlen]; omega) (by simp only [hlen]; omega)
      have he : l + (s.sze - l) = s.sze := by omega
      simp only [he] at this
      rw [this]; rfl
  generalize hfe : (begin_ s).add f = wf at hn ⊢
  have hfb : wf = ⟨s.buf.blk, f⟩ := by rw [← hfe]; simp [begin_, Ptr.add, hoff]
  generalize hle : (begin_ s).add l = wl at hn hc ⊢
  have hlb : wl = ⟨s.buf.blk, l⟩ := by rw [← hle]; simp [begin_, Ptr.add, hoff]
  simp only [erase_range, hn, hc, hsz, copy_lower, is_simple_enough, if_true, destruct,
    Bool.not_true, Bool.false_eq_true, if_false]
  rw [hfb, hlb, hmm]

/-- The result of `erase (pos)` at an index `p` of the container or at its end. -/
theorem erase_spec {h : Heap T} {s : simplevec} (hv : valid h s) {p : Nat} (hp : p ≤ s.sze) :
    ∃ h' s', erase h s ((begin_ s).add p) = some (h', s') ∧ valid h' s' ∧ Frame h s h' s' ∧
      s'.sze = (if p = s.sze then s.sze else s.sze - 1) ∧ s'.res = s.res ∧
      (if p = s.sze then slots_of h' s'.buf.blk = slots_of h s.buf.blk
       else slots_of h' s'.buf.blk = lowered (slots_of h s.buf.blk) p (p + 1) s.sze) := by
  by_cases he : p = s.sze
  · refine ⟨h, s, ?_, hv, Frame.refl h s, by simp [he], rfl, by simp [he]⟩
    have : (begin_ s).add p = end_ s := by rw [he]; rfl
    simp [erase, this]
  · obtain ⟨e1, e2, e3, e4⟩ := erase_range_spec hv (f := p) (l := p + 1) (by omega) (by omega)
    have hne : (begin_ s).add p ≠ end_ s := by
      intro hc
      have : ((begin_ s).add p).off = (end_ s).off := by rw [hc]
      simp only [begin_, end_, Ptr.add] at this
      omega
    have hadd : ((begin_ s).add p).add 1 = (begin_ s).add (p + 1) := rfl
    refine ⟨_, _, ?_, e2, e4, ?_, rfl, ?_⟩
    · simp only [erase, hne, ne_eq, not_false_eq_true, if_true, hadd]
      exact e1
    · simp only [he, if_false]; omega
    · simp only [he, if_false]; exact e3

/-! ## C1: append correctness -/

theorem push_all_spec (vs : List T) :
    ∀ (h : Heap T) (s : simplevec) (pre : List T), valid h s → s.sze = pre.length →
      (slots_of h s.buf.blk).take s.sze = pre.map some →
      pre.length + vs.length < LIMIT →
      ∃ h' s', push_all (h, s) vs = some (h', s') ∧ valid h' s' ∧
        s'.sze = pre.length + vs.length ∧
        (slots_of h' s'.buf.blk).take s'.sze = (pre ++ vs).map some := by
  induction vs with
  | nil =>
    intro h s pre hv hsz hsl _
    exact ⟨h, s, rfl, hv, by simpa using hsz, by simpa using hsl⟩
  | cons v vs ih =>
    intro h s pre hv hsz hsl hlim
    simp only [List.length_cons] at hlim
    obtain ⟨h1, s1, hp, hv1, _, hsz1, _, hsl1⟩ := push_back_spec hv v (by omega)
    obtain ⟨h2, s2, hpa, hv2, hsz2, hsl2⟩ := ih h1 s1 (pre ++ [v]) hv1
      (by simp [hsz1, hsz])
      (by rw [hsz1, hsl1, hsl]; simp)
      (by simp; omega)
    refine ⟨h2, s2, ?_, hv2, ?_, ?_⟩
    · simp only [push_all, hp, hpa]
    · rw [hsz2]; simp; omega
    · rw [hsl2]; simp

/-- C1: starting from a default-constructed container (in any free store) and calling
`push_back (v0)`, ..., `push_back (v(n-1))` in order, with `n` below the `2^31` element
limit, every call returns, `size ()` is `n` and `operator [] (i)` is `vi` for every
`i < n`. -/
theorem push_back_appends (h : Heap T) (vs : List T) (hn : vs.length < LIMIT) :
    ∃ h' s', push_all (h, mk_empty) vs = some (h', s') ∧ size s' = vs.length ∧
      ∀ i, i < vs.length → index h' s' i = (vs[i]?).map some := by
  obtain ⟨h', s', hp, hv, hsz, hsl⟩ := push_all_spec vs h mk_empty [] (valid_mk_empty h)
    rfl (by simp [mk_empty]) (by simpa using hn)
  simp only [List.length_nil, Nat.zero_add, List.nil_append] at hsz hsl
  refine ⟨h', s', hp, hsz, ?_⟩
  intro i hi
  rw [index_eq_slots hv.1]
  have h1 : ((slots_of h' s'.buf.blk).take s'.sze)[i]? = (slots_of h' s'.buf.blk)[i]? := by
    rw [List.getElem?_take]; simp [hsz, hi]
  rw [← h1, hsl]
  simp

/-- C1 at `[1, 2, 3]` in the empty free store. -/
theorem push_back_appends_witness :
    ∃ h' s', push_all (([] : Heap Nat), mk_empty) [1, 2, 3] = some (h', s') ∧
      size s' = [1, 2, 3].length ∧
      ∀ i, i < [1, 2, 3].length → index h' s' i = (([1, 2, 3] : List Nat)[i]?).map some :=
  push_back_appends ([] : Heap Nat) [1, 2, 3] (by decide)

/-! ## C2: size and capacity -/

theorem frame_other {h h' : Heap T} {a a' b : simplevec} (hb : valid h b)
    (hf : Frame h a h' a') (hd : a.buf.blk = b.buf.blk → a.buf.blk = none) :
    valid h' b ∧ (a'.buf.blk = b.buf.blk → a'.buf.blk = none) := by
  obtain ⟨f1, f2, f3⟩ := hf
  cases hk : b.buf.blk with
  | none =>
    refine ⟨?_, fun e => e⟩
    obtain ⟨b1, b2, b3, b4, b5⟩ := hb
    refine ⟨b1, b2, b3, ?_, ?_⟩
    · rw [hk] at b4 ⊢; exact b4
    · intro hne; exact absurd hk hne
  | some k =>
    have hblk := valid_block hb hk
    have hlt := blockAt_lt hblk
    have hne : some k ≠ a.buf.blk := by
      intro e
      have := hd (by rw [hk, e])
      rw [this] at e
      cases e
    have hsame := f2 k hlt hne
    obtain ⟨b1, b2, b3, b4, b5⟩ := hb
    refine ⟨⟨b1, b2, b3, ?_, ?_⟩, ?_⟩
    · rw [hk] at b4 ⊢
      simpa [slots_of, hsame] using b4
    · intro _
      rw [hk, hsame, hblk]; rfl
    · intro e
      rcases f3 with e' | ⟨k', e', hk'⟩
      · rw [e'] at e; exact absurd e.symm hne
      · rw [e'] at e; injection e with e; omega

theorem with_a_inv {w : World T} (hw : w.Inv) {r : Option (St T)} {h' : Heap T}
    {s' : simplevec} (hr : r = some (h', s')) (hv : valid h' s')
    (hf : Frame w.heap w.a h' s') : ∃ w', w.with_a r = some w' ∧ w'.Inv := by
  obtain ⟨_, wb, wd⟩ := hw
  obtain ⟨q1, q2⟩ := frame_other wb hf wd
  exact ⟨⟨h', s', w.b⟩, by rw [hr]; rfl, hv, q1, q2⟩

theorem step_inv [Inhabited T] {w : World T} (hw : w.Inv) (c : Call T)
    (hok : c.ok w.a = true) : ∃ w', c.exec w = some w' ∧ w'.Inv := by
  have hva := hw.1
  cases c with
  | reserve n =>
    simp only [Call.ok, decide_eq_true_eq] at hok
    have hsz : n ≤ w.a.res ∨ w.a.sze ≤ good_size n := by
      by_cases hle : n ≤ w.a.res
      · exact Or.inl hle
      · have := good_size_bounds (n := n) (by omega) hok
        have := hva.2.1
        exact Or.inr (by omega)
    obtain ⟨h', s', hr, hv', hf, _⟩ := reserve_spec hva hsz
    exact with_a_inv hw hr hv' hf
  | resize n =>
    simp only [Call.ok, decide_eq_true_eq] at hok
    obtain ⟨h', s', hr, hv', hf, _⟩ := resize_spec hva hok
    exact with_a_inv hw hr hv' hf
  | push_back t =>
    simp only [Call.ok, decide_eq_true_eq] at hok
    obtain ⟨h', s', hr, hv', hf, _⟩ := push_back_spec hva t hok
    exact with_a_inv hw hr hv' hf
  | pop_back =>
    simp only [Call.ok, decide_eq_true_eq] at hok
    obtain ⟨hr, hv', hf⟩ := pop_back_spec hva hok
    exact with_a_inv hw hr hv' hf
  | insert_n p n t =>
    simp only [Call.ok, Bool.and_eq_true, decide_eq_true_eq] at hok
    obtain ⟨h', s', _, hr, hv', hf, _⟩ := insert_n_spec hva t hok.1 hok.2
    exact with_a_inv hw hr hv' hf
  | erase p =>
    simp only [Call.ok, decide_eq_true_eq] at hok
    obtain ⟨h', s', hr, hv', hf, _⟩ := erase_spec hva hok
    exact with_a_inv hw hr hv' hf
  | erase_range f l =>
    simp only [Call.ok, Bool.and_eq_true, decide_eq_true_eq] at hok
    obtain ⟨hr, hv', _, hf⟩ := erase_range_spec hva hok.1 hok.2
    exact with_a_inv hw hr hv' hf
  | clear =>
    obtain ⟨hr, hv', hf⟩ := clear_spec hva
    exact with_a_inv hw hr hv' hf
  | swap =>
    obtain ⟨wa, wb, wd⟩ := hw
    refine ⟨_, rfl, ?_, ?_, ?_⟩
    · exact wb
    · exact wa
    · intro e
      simp only [swap, swap_values] at e ⊢
      have := wd e.symm
      rw [e]; exact this

theorem run_inv [Inhabited T] (cs : List (Call T)) :
    ∀ (w : World T), w.Inv → admissible w cs = true →
      ∀ k, ∃ w', run w (cs.take k) = some w' ∧ w'.Inv := by
  induction cs with
  | nil =>
    intro w hw _ k
    exact ⟨w, by simp [run], hw⟩
  | cons c cs ih =>
    intro w hw hadm k
    cases k with
    | zero => exact ⟨w, by simp [run], hw⟩
    | succ k =>
      simp only [admissible, Bool.and_eq_true] at hadm
      obtain ⟨w1, he, hw1⟩ := step_inv hw c hadm.1
      have hadm2 := hadm.2
      rw [he] at hadm2
      obtain ⟨w2, hr, hw2⟩ := ih w1 hw1 hadm2 k
      exact ⟨w2, by simp only [List.take_succ_cons, run, he, hr], hw2⟩

/-- The invariant along the calls other than the range insert: starting from empty
containers (size 0, capacity 0, in any free store), along any finite sequence of `reserve`,
`resize`, `push_back`, `pop_back` (on a non-empty container), `insert (pos, n, t)` (at a
position at most `size ()`), `erase (pos)`, `erase (first, last)` (of a range
`first ≤ last ≤ size ()`), `clear` and `swap` calls in which every requested size stays
below `2^31`, every call returns and `size () ≤ capacity ()` holds after every call, for the
container operated on and for the one it is swapped with. -/
theorem size_le_capacity_other_calls [Inhabited T] (h : Heap T) (cs : List (Call T))
    (hadm : admissible (World.init h) cs = true) :
    ∀ k, ∃ w, run (World.init h) (cs.take k) = some w ∧
      size w.a ≤ capacity w.a ∧ size w.b ≤ capacity w.b := by
  intro k
  have h0 : (World.init h).Inv :=
    ⟨valid_mk_empty h, valid_mk_empty h, fun _ => rfl⟩
  obtain ⟨w, hr, hw⟩ := run_inv cs (World.init h) h0 hadm k
  exact ⟨w, hr, hw.1.2.1, hw.2.1.2.1⟩

/-- The invariant on a sequence that uses every call of `Call`, after all eleven calls. -/
theorem size_le_capacity_other_calls_example :
    ∃ w, run (World.init ([] : Heap Nat))
        (([Call.push_back 1, Call.push_back 2, Call.insert_n 1 3 7, Call.swap,
          Call.resize 2, Call.reserve 9, Call.erase 1, Call.swap,
          Call.erase_range 1 3, Call.pop_back, Call.clear] : List (Call Nat)).take 11)
        = some w ∧
      size w.a ≤ capacity w.a ∧ size w.b ≤ capacity w.b :=
  size_le_capacity_other_calls ([] : Heap Nat) _ (by decide) 11

/-- C2 on the code: the container `a` is empty (size 0, capacity 0, `buf` null) and the
container `b` holds `[8, 9]` after two `push_back` calls. The call
`a.insert (a.begin (), b.begin (), b.end ())` is an insert at position `0 ≤ size ()` whose
requested size 2 is below `2^31`, with a source range outside the storage of `a`. `ins`
allocates storage for `a`, and the copy of the range then writes through `pos`, the null
pointer `a.begin ()` was before the allocation: the call does not return, so
`size () ≤ capacity ()` does not hold after it. -/
theorem range_insert_does_not_return :
    ∃ h1 b, push_all (([] : Heap Nat), mk_empty) [8, 9] = some (h1, b) ∧
      size b = 2 ∧ index h1 b 0 = some (some 8) ∧ index h1 b 1 = some (some 9) ∧
      size mk_empty = 0 ∧ capacity mk_empty = 0 ∧ begin_ mk_empty = null ∧
      valid h1 mk_empty ∧ valid h1 b ∧
      0 ≤ size mk_empty ∧ size mk_empty + size b < LIMIT ∧
      to_size_type ((end_ b).diff (begin_ b)) = 2 ∧
      insert_range h1 mk_empty ((begin_ mk_empty).add 0) (begin_ b) (end_ b) = none ∧
      ins h1 mk_empty ((begin_ mk_empty).add 0) 2
        = some ([some [some 8, some 9], some [none, none, none, none]],
            ⟨2, 4, ⟨some 1, 0⟩⟩) := by
  refine ⟨[some [some 8, some 9]], ⟨2, 2, ⟨some 0, 0⟩⟩,
    ?_, ?_, ?_, ?_, ?_, ?_, ?_, ?_, ?_, ?_, ?_, ?_, ?_, ?_⟩ <;> decide

/-! ## C3: insertion of copies -/

/-- C4 on the code: on the container `[1, 2, 3]` built by three `push_back` calls,
`erase (begin (), begin () + 1)` returns with `size () == 2`, but the elements are `1, 1`:
the elements after the removed range did not move down (the claim has `2, 3`). -/
theorem erase_range_moves_up :
    ∃ h1 s1 h2 s2, push_all (([] : Heap Nat), mk_empty) [1, 2, 3] = some (h1, s1) ∧
      index h1 s1 0 = some (some 1) ∧ index h1 s1 1 = some (some 2) ∧
      index h1 s1 2 = some (some 3) ∧
      erase_range h1 s1 ((begin_ s1).add 0) ((begin_ s1).add 1) = some (h2, s2) ∧
      size s2 = 2 ∧ index h2 s2 0 = some (some 1) ∧ index h2 s2 1 = some (some 1) := by
  refine ⟨[none, some [some 1, some 2, some 3, none]], ⟨3, 4, ⟨some 1, 0⟩⟩,
    [none, some [some 1, some 1, some 2, none]], ⟨2, 4, ⟨some 1, 0⟩⟩,
    ?_, ?_, ?_, ?_, ?_, ?_, ?_, ?_⟩ <;> decide

/-- C5 on the code: on the container `[1, 2, 3]` the value 9 is inserted before index 1
with `insert (begin () + 1, 1, 9)` (the overload `insert (pos, t)` is ill-formed, see above),
which gives `[1, 9, 2, 3]`; `erase (begin () + 1)` then gives `[1, 9, 9]`, not `[1, 2, 3]`:
the tail is copied up instead of down, as in C4. -/
theorem insert_erase_not_inverse :
    ∃ h1 s1 h2 s2 h3 s3, push_all (([] : Heap Nat), mk_empty) [1, 2, 3] = some (h1, s1) ∧
      insert_n h1 s1 ((begin_ s1).add 1) 1 9 = some (h2, s2) ∧
      size s2 = 4 ∧ index h2 s2 0 = some (some 1) ∧ index h2 s2 1 = some (some 9) ∧
      index h2 s2 2 = some (some 2) ∧ index h2 s2 3 = some (some 3) ∧
      erase h2 s2 ((begin_ s2).add 1) = some (h3, s3) ∧
      size s3 = size s1 ∧ index h3 s3 0 = some (some 1) ∧ index h3 s3 1 = some (some 9) ∧
      index h3 s3 2 = some (some 9) ∧
      index h1 s1 1 = some (some 2) ∧ index h1 s1 2 = some (some 3) := by
  refine ⟨[none, some [some 1, some 2, some 3, none]], ⟨3, 4, ⟨some 1, 0⟩⟩,
    [none, some [some 1, some 9, some 2, some 3]], ⟨4, 4, ⟨some 1, 0⟩⟩,
    [none, some [some 1, some 9, some 9, some 2]], ⟨3, 4, ⟨some 1, 0⟩⟩,
    ?_, ?_, ?_, ?_, ?_, ?_, ?_, ?_, ?_, ?_, ?_, ?_, ?_, ?_⟩ <;> decide

/-! ## C6, C7: reserve -/

/-- C6 fails as stated: `2^31` is a value of the 32-bit `size_type`, and `reserve (2^31)` on
the empty container returns with `capacity () == 0`, because `good_size (2^31)` wraps to 0. -/
theorem reserve_wraps_at_limit :
    2147483648 < SIZE_MOD ∧ good_size 2147483648 = 0 ∧
    ∃ st, reserve ([] : Heap Nat) mk_empty 2147483648 = some st ∧
      ¬ (2147483648 ≤ capacity st.2) := by
  refine ⟨by decide, by decide, ⟨([some []], ⟨0, 0, ⟨some 0, 0⟩⟩), by decide, by decide⟩⟩

/-- C6, amended: for every valid container and every `n` that is below the `2^31` element
limit or already within the capacity, `reserve (n)` returns and `capacity () ≥ n`. -/
theorem reserve_capacity (h : Heap T) (s : simplevec) (n : Nat) (hv : valid h s)
    (hn : n < LIMIT ∨ n ≤ capacity s) :
    ∃ h' s', reserve h s n = some (h', s') ∧ n ≤ capacity s' := by
  have hsz : n ≤ s.res ∨ s.sze ≤ good_size n := by
    by_cases hle : n ≤ s.res
    · exact Or.inl hle
    · rcases hn with hn | hn
      · have := good_size_bounds (n := n) (by omega) hn
        have := hv.2.1
        exact Or.inr (by omega)
      · exact absurd hn hle
  obtain ⟨h', s', hr, _, _, _, hres, _, _⟩ := reserve_spec hv hsz
  refine ⟨h', s', hr, ?_⟩
  simp only [capacity, hres]
  split
  · assumption
  · rcases hn with hn | hn
    · have := good_size_bounds (n := n) (by omega) hn
      omega
    · simp only [capacity] at hn; omega

/-- C6 (amended) at `reserve (5)` on the empty container. -/
theorem reserve_capacity_witness :
    ∃ h' s', reserve ([] : Heap Nat) mk_empty 5 = some (h', s') ∧ 5 ≤ capacity s' :=
  reserve_capacity ([] : Heap Nat) mk_empty 5 (by decide) (by decide)

/-- C7 fails as stated: on the container `[7]` (capacity 2), `reserve (2^31)` asks for
`good_size (2^31) = 0` slots and then copies the live element into them: the copy runs past
the end of the new storage, and no state with the element unchanged results. -/
theorem reserve_overruns_at_limit :
    ∃ h1 s1, push_back ([] : Heap Nat) mk_empty 7 = some (h1, s1) ∧
      size s1 = 1 ∧ capacity s1 = 2 ∧ index h1 s1 0 = some (some 7) ∧
      ¬ (2147483648 ≤ capacity s1) ∧ good_size 2147483648 = 0 ∧
      reserve h1 s1 2147483648 = none := by
  refine ⟨[some [some 7, none]], ⟨1, 2, ⟨some 0, 0⟩⟩, ?_, ?_, ?_, ?_, ?_, ?_, ?_⟩ <;> decide

/-- C7, amended: for every valid container and every `n`: if `n ≤ capacity ()`, `reserve (n)`
changes nothing; otherwise, when `n` is below the `2^31` element limit or the container is
empty, it returns with `capacity ()` exactly `good_size (n)` while `size ()` and the element
at every index below `size ()` are unchanged. -/
theorem reserve_frame (h : Heap T) (s : simplevec) (n : Nat) (hv : valid h s) :
    (n ≤ capacity s → reserve h s n = some (h, s)) ∧
    (¬ n ≤ capacity s → (n < LIMIT ∨ size s = 0) →
      ∃ h' s', reserve h s n = some (h', s') ∧ capacity s' = good_size n ∧
        size s' = size s ∧ ∀ i, i < size s → index h' s' i = index h s i) := by
  refine ⟨fun hle => reserve_keep hle, ?_⟩
  intro hnle hn
  simp only [capacity] at hnle
  have hsz : n ≤ s.res ∨ s.sze ≤ good_size n := by
    rcases hn with hn | hn
    · have := good_size_bounds (n := n) (by omega) hn
      have := hv.2.1
      exact Or.inr (by omega)
    · simp only [size] at hn
      exact Or.inr (by omega)
  obtain ⟨h', s', hr, hv', _, hsze, hres, _, hsl⟩ := reserve_spec hv hsz
  have htake := reserve_take hv hsl
  refine ⟨h', s', hr, by simp [capacity, hres, hnle], hsze, ?_⟩
  intro i hi
  exact index_congr hv hv' htake hi

/-- C7 (amended) on the container `[7]` of capacity 2: `reserve (1)` changes nothing, and
`reserve (5)` moves it to capacity `good_size (5)` with the element kept. -/
theorem reserve_frame_witness :
    reserve ([some [some 7, none]] : Heap Nat) ⟨1, 2, ⟨some 0, 0⟩⟩ 1
      = some ([some [some 7, none]], ⟨1, 2, ⟨some 0, 0⟩⟩) ∧
    ∃ h' s', reserve ([some [some 7, none]] : Heap Nat) ⟨1, 2, ⟨some 0, 0⟩⟩ 5 = some (h', s') ∧
      capacity s' = good_size 5 ∧ size s' = size (⟨1, 2, ⟨some 0, 0⟩⟩ : simplevec) ∧
      ∀ i, i < size (⟨1, 2, ⟨some 0, 0⟩⟩ : simplevec) →
        index h' s' i = index ([some [some 7, none]] : Heap Nat) ⟨1, 2, ⟨some 0, 0⟩⟩ i :=
  ⟨(reserve_frame ([some [some 7, none]] : Heap Nat) ⟨1, 2, ⟨some 0, 0⟩⟩ 1 (by decide)).1
      (by decide),
   (reserve_frame ([some [some 7, none]] : Heap Nat) ⟨1, 2, ⟨some 0, 0⟩⟩ 5 (by decide)).2
      (by decide) (Or.inl (by decide))⟩

/-! ## C8, C9, C10: growth policy -/

/-- C8: starting from an empty container (in any free store) and appending one element at
a time with `push_back`, `capacity ()` is 2 after the 1st append, 4 after the 3rd and 8
after the 5th. -/
theorem growth_curve (h : Heap T) (v1 v2 v3 v4 v5 : T) :
    ∃ st1 st3 st5,
      push_all (h, mk_empty) [v1] = some st1 ∧ capacity st1.2 = 2 ∧
      push_all (h, mk_empty) [v1, v2, v3] = some st3 ∧ capacity st3.2 = 4 ∧
      push_all (h, mk_empty) [v1, v2, v3, v4, v5] = some st5 ∧ capacity st5.2 = 8 := by
  have g1 : good_size 1 = 2 := by decide
  have g3 : good_size 3 = 4 := by decide
  have g5 : good_size 5 = 8 := by decide
  obtain ⟨h1, s1, e1, hv1, _, z1, r1, _⟩ :=
    push_back_spec (valid_mk_empty h) v1 (by simp [mk_empty, LIMIT])
  simp only [mk_empty] at z1 r1
  simp only [Nat.zero_add, g1] at z1 r1
  have r1' : s1.res = 2 := by rw [r1]; rfl
  obtain ⟨h2, s2, e2, hv2, _, z2, r2, _⟩ :=
    push_back_spec hv1 v2 (by rw [z1]; simp [LIMIT])
  rw [z1, r1'] at r2
  rw [z1] at z2
  have r2' : s2.res = 2 := by rw [r2]; rfl
  obtain ⟨h3, s3, e3, hv3, _, z3, r3, _⟩ :=
    push_back_spec hv2 v3 (by rw [z2]; simp [LIMIT])
  rw [z2, r2'] at r3
  rw [z2] at z3
  have r3' : s3.res = 4 := by rw [r3]; simp [g3]
  obtain ⟨h4, s4, e4, hv4, _, z4, r4, _⟩ :=
    push_back_spec hv3 v4 (by rw [z3]; simp [LIMIT])
  rw [z3, r3'] at r4
  rw [z3] at z4
  have r4' : s4.res = 4 := by rw [r4]; rfl
  obtain ⟨h5, s5, e5, hv5, _, z5, r5, _⟩ :=
    push_back_spec hv4 v5 (by rw [z4]; simp [LIMIT])
  rw [z4, r4'] at r5
  have r5' : s5.res = 8 := by rw [r5]; simp [g5]
  refine ⟨(h1, s1), (h3, s3), (h5, s5), ?_, r1', ?_, r3', ?_, r5'⟩
  · simp only [push_all, e1]
  · simp only [push_all, e1, e2, e3]
  · simp only [push_all, e1, e2, e3, e4, e5]

/-- C9: for `1 ≤ need < 2^31`, `good_size (need)` is twice the largest power of two not
exceeding `need`; the shifted value is below `2^32`, so the conversion to `size_type` does
not wrap, and `need < good_size (need) ≤ 2 * need`. -/
theorem good_size_pow2 (need : Nat) (h1 : 1 ≤ need) (h2 : need < LIMIT) :
    good_size need = 2 * 2 ^ Nat.log2 need ∧
    2 <<< ecb_ld32 need < SIZE_MOD ∧
    2 ^ Nat.log2 need ≤ need ∧
    need < good_size need ∧ good_size need ≤ 2 * need := by
  have hb := pow_log2_bounds h1
  have hg := good_size_bounds h1 h2
  have hlim : need < 2147483648 := by simpa [LIMIT] using h2
  refine ⟨good_size_eq h1 h2, ?_, hb.1, hg.1, hg.2.1⟩
  rw [ecb_ld32_eq_log2 (by simp only [SIZE_MOD]; omega), Nat.shiftLeft_eq]
  simp only [SIZE_MOD]
  omega

/-- C9 at `need = 5`. -/
theorem good_size_pow2_witness :
    good_size 5 = 2 * 2 ^ Nat.log2 5 ∧
    2 <<< ecb_ld32 5 < SIZE_MOD ∧
    2 ^ Nat.log2 5 ≤ 5 ∧
    5 < good_size 5 ∧ good_size 5 ≤ 2 * 5 :=
  good_size_pow2 5 (by decide) (by decide)

/-- C10 fails as stated: `good_size (1)` is 2, below 5. -/
theorem good_size_one_below_five : 0 < 1 ∧ good_size 1 = 2 ∧ ¬ (5 ≤ good_size 1) := by
  decide

/-- C10, amended: 5 is the value of `good_size (0)`; for `1 ≤ need < 2^31` the new
capacity is at least 2, and it reaches 5 exactly when `need` is at least 4. -/
theorem good_size_minimum (need : Nat) (h1 : 1 ≤ need) (h2 : need < LIMIT) :
    good_size 0 = 5 ∧ 2 ≤ good_size need ∧ (5 ≤ good_size need ↔ 4 ≤ need) := by
  have hg := good_size_bounds h1 h2
  have he := good_size_eq h1 h2
  refine ⟨by decide, by omega, ?_⟩
  constructor
  · intro h5
    by_contra hlt
    have hcases : need = 1 ∨ need = 2 ∨ need = 3 := by omega
    rcases hcases with e | e | e <;> subst e <;> revert h5 <;> decide
  · intro h4; omega

/-- C10 (amended) at `need = 4`. -/
theorem good_size_minimum_witness :
    good_size 0 = 5 ∧ 2 ≤ good_size 4 ∧ (5 ≤ good_size 4 ↔ 4 ≤ 4) :=
  good_size_minimum 4 (by decide) (by decide)

/-! ## C11, C12: insertion of a range, copy construction -/

/-- C11 on the code: with the container `[1, 2, 3]` (capacity 4) and the source range
`[8, 9]` of another container, `insert (begin () + 1, first, last)` has to reallocate; `ins`
moves the elements to new storage and releases the old one, and the copy of the range then
writes through `pos`, which still points into the released storage: the call does not
produce the container of the claim. The same call with the one-element range `[8]` fits
the capacity and gives `[1, 8, 2, 3]`. -/
theorem insert_range_stale_pos :
    ∃ h1 s1 h2 src h3 s3,
      push_all (([] : Heap Nat), mk_empty) [1, 2, 3] = some (h1, s1) ∧
      push_all (h1, mk_empty) [8, 9] = some (h2, src) ∧
      size s1 = 3 ∧ capacity s1 = 4 ∧ size src = 2 ∧ s1.buf.blk ≠ src.buf.blk ∧
      insert_range h2 s1 ((begin_ s1).add 1) (begin_ src) (end_ src) = none ∧
      insert_range h2 s1 ((begin_ s1).add 1) (begin_ src) ((begin_ src).add 1)
        = some (h3, s3) ∧
      size s3 = 4 ∧ index h3 s3 0 = some (some 1) ∧ index h3 s3 1 = some (some 8) ∧
      index h3 s3 2 = some (some 2) ∧ index h3 s3 3 = some (some 3) := by
  refine ⟨[none, some [some 1, some 2, some 3, none]], ⟨3, 4, ⟨some 1, 0⟩⟩,
    [none, some [some 1, some 2, some 3, none], some [some 8, some 9]],
    ⟨2, 2, ⟨some 2, 0⟩⟩,
    [none, some [some 1, some 8, some 2, some 3], some [some 8, some 9]],
    ⟨4, 4, ⟨some 1, 0⟩⟩, ?_, ?_, ?_, ?_, ?_, ?_, ?_, ?_, ?_, ?_, ?_, ?_, ?_⟩ <;> decide

/-- C12 on the code: the copy constructor of the container `[1, 2, 3]` starts from `buf(0)`
and calls `insert (begin (), v.begin (), v.end ())`: `ins` allocates storage, and the copy
of the three elements then writes through `pos`, the null pointer `begin ()` was before the
allocation. No copy results. The copy of an empty container is the empty container. -/
theorem copy_ctor_null_pos :
    ∃ h1 s1, push_all (([] : Heap Nat), mk_empty) [1, 2, 3] = some (h1, s1) ∧
      size s1 = 3 ∧ index h1 s1 0 = some (some 1) ∧ index h1 s1 1 = some (some 2) ∧
      index h1 s1 2 = some (some 3) ∧
      begin_ mk_empty = null ∧
      copy_ctor h1 s1 = none ∧
      copy_ctor h1 mk_empty = some (h1, mk_empty) := by
  refine ⟨[none, some [some 1, some 2, some 3, none]], ⟨3, 4, ⟨some 1, 0⟩⟩,
    ?_, ?_, ?_, ?_, ?_, ?_, ?_, ?_⟩ <;> decide

/-! ## C13: equality -/

theorem take_eq_iff_getElem? {α : Type} (a b : List α) (n : Nat) :
    a.take n = b.take n ↔ ∀ i, i < n → a[i]? = b[i]? := by
  constructor
  · intro ht i hi
    exact getElem?_of_take_eq ht hi
  · intro hall
    apply List.ext_getElem?
    intro i
    rw [List.getElem?_take, List.getElem?_take]
    by_cases hi : i < n
    · simp [hi, hall i hi]
    · simp [hi]

theorem readRange_live {h : Heap T} {s : simplevec} (hv : valid h s) (hpos : 0 < s.sze) :
    readRange h (s.buf.add 0) s.sze = some ((slots_of h s.buf.blk).take s.sze) := by
  have hres : 0 < s.res := Nat.lt_of_lt_of_le hpos hv.2.1
  have hblk := valid_blockAt hv hres
  have hlen : (slots_of h s.buf.blk).length = s.res := hv.2.2.2.1
  have hle : s.sze ≤ (slots_of h s.buf.blk).length := by rw [hlen]; exact hv.2.1
  simp [readRange, Ptr.add, hv.1, hblk, hle]

/-- C13: for all valid containers `v1` and `v2` over an element type with decidable
equality of values (the value is the bit pattern), `v1 == v2` returns, and it is `true`
exactly when `v1.size () == v2.size ()` and `v1[i]` equals `v2[i]` for every `i` below the
size. -/
theorem op_eq_iff [DecidableEq T] (h : Heap T) (v1 v2 : simplevec) (hv1 : valid h v1)
    (hv2 : valid h v2) :
    ∃ r, op_eq h v1 v2 = some r ∧
      (r = true ↔ size v1 = size v2 ∧ ∀ i, i < size v1 → index h v1 i = index h v2 i) := by
  simp only [size]
  by_cases hne : v1.sze ≠ v2.sze
  · refine ⟨false, by simp [op_eq, size, hne], ?_⟩
    constructor
    · intro hf; cases hf
    · intro hx; exact absurd hx.1 hne
  · have heq : v1.sze = v2.sze := by omega
    by_cases hz : v1.sze = 0
    · have hz2 : v2.sze = 0 := by omega
      refine ⟨true, by simp [op_eq, size, hz, hz2], ?_⟩
      constructor
      · intro _
        exact ⟨heq, fun i hi => by omega⟩
      · intro _; rfl
    · have r1 := readRange_live hv1 (by omega)
      have r2 := readRange_live hv2 (by omega)
      rw [← heq] at r2
      have hiff := take_eq_iff_getElem? (slots_of h v1.buf.blk) (slots_of h v2.buf.blk) v1.sze
      have hidx : (∀ i, i < v1.sze → index h v1 i = index h v2 i)
          ↔ (slots_of h v1.buf.blk).take v1.sze = (slots_of h v2.buf.blk).take v1.sze := by
        rw [hiff]
        constructor
        · intro hall i hi
          rw [← index_eq_slots hv1.1, ← index_eq_slots hv2.1]
          exact hall i hi
        · intro hall i hi
          rw [index_eq_slots hv1.1, index_eq_slots hv2.1]
          exact hall i hi
      by_cases ht : (slots_of h v1.buf.blk).take v1.sze = (slots_of h v2.buf.blk).take v1.sze
      · refine ⟨true, ?_, ?_⟩
        · simp only [op_eq, size, hne, if_false, hz, memcmp, r1, r2, ht, if_true]
          rfl
        · constructor
          · intro _; exact ⟨heq, hidx.mpr ht⟩
          · intro _; rfl
      · refine ⟨false, ?_, ?_⟩
        · simp only [op_eq, size, hne, if_false, hz, memcmp, r1, r2, ht]
          rfl
        · constructor
          · intro hf; cases hf
          · intro hx; exact absurd (hidx.mp hx.2) ht

/-- C13 on the examples of the specification: `[1, 2, 3] == [1, 2, 3]` for two containers
with storage of their own is `true`, `[1, 2, 3] == [1, 2]` is `false`, and two empty
containers are equal. -/
theorem op_eq_iff_witness :
    (∃ r, op_eq ([some [some 1, some 2, some 3, none], some [some 1, some 2, some 3, none]]
          : Heap Nat) ⟨3, 4, ⟨some 0, 0⟩⟩ ⟨3, 4, ⟨some 1, 0⟩⟩ = some r ∧
      (r = true ↔ size (⟨3, 4, ⟨some 0, 0⟩⟩ : simplevec) = size (⟨3, 4, ⟨some 1, 0⟩⟩ : simplevec) ∧
        ∀ i, i < size (⟨3, 4, ⟨some 0, 0⟩⟩ : simplevec) →
          index ([some [some 1, some 2, some 3, none], some [some 1, some 2, some 3, none]]
            : Heap Nat) ⟨3, 4, ⟨some 0, 0⟩⟩ i
          = index ([some [some 1, some 2, some 3, none], some [some 1, some 2, some 3, none]]
            : Heap Nat) ⟨3, 4, ⟨some 1, 0⟩⟩ i)) ∧
    op_eq ([some [some 1, some 2, some 3, none], some [some 1, some 2, some 3, none]]
      : Heap Nat) ⟨3, 4, ⟨some 0, 0⟩⟩ ⟨3, 4, ⟨some 1, 0⟩⟩ = some true ∧
    op_eq ([some [some 1, some 2, some 3, none], some [some 1, some 2]]
      : Heap Nat) ⟨3, 4, ⟨some 0, 0⟩⟩ ⟨2, 2, ⟨some 1, 0⟩⟩ = some false ∧
    op_eq ([] : Heap Nat) mk_empty mk_empty = some true :=
  ⟨op_eq_iff ([some [some 1, some 2, some 3, none], some [some 1, some 2, some 3, none]]
      : Heap Nat) ⟨3, 4, ⟨some 0, 0⟩⟩ ⟨3, 4, ⟨some 1, 0⟩⟩ (by decide) (by decide),
    by decide, by decide, by decide⟩

/-! ## C14: ordering -/

theorem holds_index {h : Heap T} {s : simplevec} {xs : List T} (hh : holds h s xs) {i : Nat}
    (hi : i < xs.length) : index h s i = some (some xs[i]) := by
  obtain ⟨hv, hsz, hsl⟩ := hh
  rw [index_eq_slots hv.1]
  have h1 : ((slots_of h s.buf.blk).take s.sze)[i]? = (slots_of h s.buf.blk)[i]? := by
    rw [List.getElem?_take]; simp [hsz, hi]
  rw [← h1, hsl]
  simp [List.getElem?_eq_getElem hi]

theorem holds_length_lt {h : Heap T} {s : simplevec} {xs : List T} (hh : holds h s xs) :
    xs.length < 4294967296 := by
  obtain ⟨hv, hsz, _⟩ := hh
  have h1 := hv.2.1
  have h2 : s.res < 4294967296 := by simpa [SIZE_MOD] using hv.2.2.1
  omega

theorem lt_lists_nil_left [LT T] [DecidableRel (fun (x y : T) => x < y)] (ys : List T) :
    lt_lists [] ys = decide (0 < ys.length) := by
  cases ys <;> simp [lt_lists]

theorem lt_lists_nil_right [LT T] [DecidableRel (fun (x y : T) => x < y)] (xs : List T) :
    lt_lists xs [] = false := by
  cases xs <;> simp [lt_lists]

theorem lt_loop_eq [LT T] [DecidableRel (fun (x y : T) => x < y)] {h : Heap T}
    {v1 v2 : simplevec} {xs ys : List T} (h1 : holds h v1 xs) (h2 : holds h v2 ys) :
    ∀ (k i : Nat), i + k = min xs.length ys.length →
      lt_loop h v1 v2 k i = some (lt_lists (xs.drop i) (ys.drop i)) := by
  have hl1 := holds_length_lt h1
  have hl2 := holds_length_lt h2
  intro k
  induction k with
  | zero =>
    intro i hi
    simp only [lt_loop, size, h1.2.1, h2.2.1]
    by_cases hle : xs.length ≤ ys.length
    · have hx : xs.drop i = [] := List.drop_eq_nil_of_le (by omega)
      rw [hx, lt_lists_nil_left]
      simp only [List.length_drop]
      congr 1
      simp only [decide_eq_decide]
      omega
    · have hy : ys.drop i = [] := List.drop_eq_nil_of_le (by omega)
      rw [hy, lt_lists_nil_right]
      simp only [Option.some.injEq, decide_eq_false_iff_not]
      omega
  | succ k ih =>
    intro i hi
    have hix : i < xs.length := by omega
    have hiy : i < ys.length := by omega
    have hc1 : to_size_type (i : Int) = i := by unfold to_size_type; omega
    have hc2 : to_size_t ((i : Int) + 1) = i + 1 := by unfold to_size_t; omega
    have hdx : xs.drop i = xs[i] :: xs.drop (i + 1) := List.drop_eq_getElem_cons hix
    have hdy : ys.drop i = ys[i] :: ys.drop (i + 1) := List.drop_eq_getElem_cons hiy
    have hrec := ih (i + 1) (by omega)
    simp only [lt_loop, hc1, hc2, holds_index h1 hix, holds_index h2 hiy, hrec, hdx, hdy,
      lt_lists]
    split
    · rfl
    · split <;> rfl

theorem lex_before_cons_same [LT T] (x : T) (xs ys : List T) :
    lex_before (x :: xs) (x :: ys) ↔ lex_before xs ys := by
  unfold lex_before
  constructor
  · rintro (⟨i, hi, hpre, hne, a, b, ha, hb, hab⟩ | ⟨hall, hlen⟩)
    · cases i with
      | zero => simp at hne
      | succ i =>
        left
        simp only [List.length_cons, List.getElem?_cons_succ] at hi hne ha hb
        refine ⟨i, by omega, ?_, hne, a, b, ha, hb, hab⟩
        intro j hj
        have := hpre (j + 1) (by omega)
        simpa using this
    · right
      simp only [List.length_cons] at hall hlen
      refine ⟨?_, by omega⟩
      intro i hi
      have := hall (i + 1) (by omega)
      simpa using this
  · rintro (⟨i, hi, hpre, hne, a, b, ha, hb, hab⟩ | ⟨hall, hlen⟩)
    · left
      refine ⟨i + 1, by simp only [List.length_cons]; omega, ?_, by simpa using hne,
        a, b, by simpa using ha, by simpa using hb, hab⟩
      intro j hj
      cases j with
      | zero => simp
      | succ j => simpa using hpre j (by omega)
    · right
      refine ⟨?_, by simp only [List.length_cons]; omega⟩
      intro i hi
      simp only [List.length_cons] at hi
      cases i with
      | zero => simp
      | succ i => simpa using hall i (by omega)

theorem lt_lists_iff_lex_before [LinearOrder T] (xs ys : List T) :
    lt_lists xs ys = true ↔ lex_before xs ys := by
  induction xs generalizing ys with
  | nil =>
    cases ys with
    | nil => simp [lt_lists, lex_before]
    | cons y ys => simp [lt_lists, lex_before]
  | cons x xs ih =>
    cases ys with
    | nil => simp [lt_lists, lex_before]
    | cons y ys =>
      by_cases hxy : x < y
      · simp only [lt_lists, hxy, if_true, true_iff]
        left
        refine ⟨0, by simp, fun j hj => by omega, ?_, x, y, by simp, by simp, hxy⟩
        simp only [List.getElem?_cons_zero, ne_eq, Option.some.injEq]
        exact ne_of_lt hxy
      · by_cases hyx : y < x
        · simp only [lt_lists, hxy, if_false, hyx, if_true, Bool.false_eq_true, false_iff]
          rintro (⟨i, hi, hpre, hne, a, b, ha, hb, hab⟩ | ⟨hall, hlen⟩)
          · cases i with
            | zero =>
              simp only [List.getElem?_cons_zero, Option.some.injEq] at ha hb
              subst ha; subst hb
              exact hxy hab
            | succ i =>
              have := hpre 0 (by omega)
              simp only [List.getElem?_cons_zero, Option.some.injEq] at this
              rw [this] at hyx
              exact lt_irrefl _ hyx
          · have := hall 0 (by simp)
            simp only [List.getElem?_cons_zero, Option.some.injEq] at this
            rw [this] at hyx
            exact lt_irrefl _ hyx
        · have hEq : x = y := le_antisymm (not_lt.mp hyx) (not_lt.mp hxy)
          subst hEq
          simp only [lt_lists, hxy, if_false]
          rw [ih ys, lex_before_cons_same]

/-- C14: for all valid containers `v1` and `v2` with constructed elements `xs` and `ys` of
a linearly ordered type, `v1 < v2` returns, and it is `true` exactly when `xs` precedes `ys`
in the lexicographic order of the specification: at the first index below both sizes where
the elements differ the element of `v1` is the smaller one, or there is no such index and
`v1` is the shorter one. -/
theorem op_lt_lex [LinearOrder T] (h : Heap T) (v1 v2 : simplevec) (xs ys : List T)
    (h1 : holds h v1 xs) (h2 : holds h v2 ys) :
    ∃ r, op_lt h v1 v2 = some r ∧ (r = true ↔ lex_before xs ys) := by
  refine ⟨lt_lists xs ys, ?_, lt_lists_iff_lex_before xs ys⟩
  have hmin : min_ (size v1) (size v2) = min xs.length ys.length := by
    simp only [min_, size, h1.2.1, h2.2.1]
    split <;> omega
  have := lt_loop_eq h1 h2 (min xs.length ys.length) 0 (by omega)
  simpa [op_lt, hmin] using this

/-- C14 on the examples of the specification: `[1, 2] < [1, 2, 3]` is `true` and
`[1, 3] < [1, 2, 9]` is `false`. -/
theorem op_lt_lex_witness :
    (∃ r, op_lt ([some [some 1, some 2], some [some 1, some 2, some 3, none]] : Heap Nat)
        ⟨2, 2, ⟨some 0, 0⟩⟩ ⟨3, 4, ⟨some 1, 0⟩⟩ = some r ∧
      (r = true ↔ lex_before ([1, 2] : List Nat) [1, 2, 3])) ∧
    op_lt ([some [some 1, some 2], some [some 1, some 2, some 3, none]] : Heap Nat)
      ⟨2, 2, ⟨some 0, 0⟩⟩ ⟨3, 4, ⟨some 1, 0⟩⟩ = some true ∧
    op_lt ([some [some 1, some 3], some [some 1, some 2, some 9, none]] : Heap Nat)
      ⟨2, 2, ⟨some 0, 0⟩⟩ ⟨3, 4, ⟨some 1, 0⟩⟩ = some false :=
  ⟨op_lt_lex ([some [some 1, some 2], some [some 1, some 2, some 3, none]] : Heap Nat)
      ⟨2, 2, ⟨some 0, 0⟩⟩ ⟨3, 4, ⟨some 1, 0⟩⟩ [1, 2] [1, 2, 3]
      ⟨by decide, by decide, by decide⟩ ⟨by decide, by decide, by decide⟩,
    by decide, by decide⟩

/-! ## C15, C16, C17, C18: resize, clear, swap -/

/-- C15: for every valid container of size `s` and every `n` below the `2^31` element
limit, `resize (n)` returns with `size () == n` and the element at every index
`i < min (s, n)` the same as before the call. -/
theorem resize_keeps_prefix [Inhabited T] (h : Heap T) (s : simplevec) (n : Nat)
    (hv : valid h s) (hn : n < LIMIT) :
    ∃ h' s', resize h s n = some (h', s') ∧ size s' = n ∧
      ∀ i, i < min (size s) n → index h' s' i = index h s i := by
  obtain ⟨h', s', hr, hv', _, hsz, _, htake, _, _⟩ := resize_spec hv hn
  refine ⟨h', s', hr, hsz, ?_⟩
  intro i hi
  simp only [size] at hi
  exact index_congr hv hv' htake (by omega)

/-- C15 on the container `[1, 2, 3]` of capacity 4, resized to 6 (a call that
reallocates). -/
theorem resize_keeps_prefix_witness :
    ∃ h' s', resize ([some [some 1, some 2, some 3, none]] : Heap Nat) ⟨3, 4, ⟨some 0, 0⟩⟩ 6
        = some (h', s') ∧ size s' = 6 ∧
      ∀ i, i < min (size (⟨3, 4, ⟨some 0, 0⟩⟩ : simplevec)) 6 → index h' s' i
        = index ([some [some 1, some 2, some 3, none]] : Heap Nat) ⟨3, 4, ⟨some 0, 0⟩⟩ i :=
  resize_keeps_prefix ([some [some 1, some 2, some 3, none]] : Heap Nat)
    ⟨3, 4, ⟨some 0, 0⟩⟩ 6 (by decide) (by decide)

/-- C16 fails as stated: after `push_back (7)` and `pop_back ()` the container is empty with
capacity 2, and `resize (1)` makes the slot 0 live again with the 7 it still holds, not with
`T ()` (0 for this element type); `resize (3)` on the empty container gives three slots of
fresh storage in which no value has been constructed. -/
theorem resize_constructs_nothing :
    ∃ h1 s1 h2 s2 h3 s3 h4 s4,
      push_back ([] : Heap Nat) mk_empty 7 = some (h1, s1) ∧
      pop_back h1 s1 = some (h2, s2) ∧ size s2 = 0 ∧
      resize h2 s2 1 = some (h3, s3) ∧ size s3 = 1 ∧
      index h3 s3 0 = some (some 7) ∧ index h3 s3 0 ≠ some (some (default : Nat)) ∧
      resize ([] : Heap Nat) mk_empty 3 = some (h4, s4) ∧ size s4 = 3 ∧
      index h4 s4 0 = some none ∧ index h4 s4 1 = some none ∧ index h4 s4 2 = some none := by
  refine ⟨[some [some 7, none]], ⟨1, 2, ⟨some 0, 0⟩⟩, [some [some 7, none]],
    ⟨0, 2, ⟨some 0, 0⟩⟩, [some [some 7, none]], ⟨1, 2, ⟨some 0, 0⟩⟩,
    [some [none, none, none, none]], ⟨3, 4, ⟨some 0, 0⟩⟩,
    ?_, ?_, ?_, ?_, ?_, ?_, ?_, ?_, ?_, ?_, ?_, ?_⟩ <;> decide

/-- C16, amended: for every valid container of size `s` and every `n` with
`s < n < 2^31`, `resize (n)` returns with `size () == n` and constructs no element in
`[s, n)`: when `n ≤ capacity ()` each of these slots holds what the storage held before the
call, and when the call reallocates they are slots of fresh storage without a constructed
value. -/
theorem resize_new_slots [Inhabited T] (h : Heap T) (s : simplevec) (n : Nat)
    (hv : valid h s) (hgrow : size s < n) (hn : n < LIMIT) :
    ∃ h' s', resize h s n = some (h', s') ∧ size s' = n ∧
      ∀ i, size s ≤ i → i < n →
        index h' s' i = if n ≤ capacity s then index h s i else some none := by
  simp only [size, capacity] at hgrow ⊢
  obtain ⟨h', s', hr, hv', _, hsz, hres, _, hnew, hsame⟩ := resize_spec hv hn
  refine ⟨h', s', hr, hsz, ?_⟩
  intro i h1 h2
  by_cases hle : n ≤ s.res
  · obtain ⟨e1, e2⟩ := hsame hle
    simp only [hle, if_true, index, e1, e2]
  · have hgs := good_size_bounds (n := n) (by omega) hn
    have hlen : ((slots_of h s.buf.blk).take s.sze).length = s.sze := by
      rw [List.length_take, hv.2.2.2.1]; exact Nat.min_eq_left hv.2.1
    simp only [hle, if_false]
    rw [index_eq_slots hv'.1, hnew hle, List.getElem?_append_right (by omega), hlen,
      List.getElem?_replicate]
    have : i - s.sze < good_size n - s.sze := by omega
    simp [this]

/-- C16 (amended) on the empty container of capacity 2 that still holds a 7, resized
to 1. -/
theorem resize_new_slots_witness :
    ∃ h' s', resize ([some [some 7, none]] : Heap Nat) ⟨0, 2, ⟨some 0, 0⟩⟩ 1 = some (h', s') ∧
      size s' = 1 ∧
      ∀ i, size (⟨0, 2, ⟨some 0, 0⟩⟩ : simplevec) ≤ i → i < 1 →
        index h' s' i = if 1 ≤ capacity (⟨0, 2, ⟨some 0, 0⟩⟩ : simplevec)
          then index ([some [some 7, none]] : Heap Nat) ⟨0, 2, ⟨some 0, 0⟩⟩ i else some none :=
  resize_new_slots ([some [some 7, none]] : Heap Nat) ⟨0, 2, ⟨some 0, 0⟩⟩ 1
    (by decide) (by decide) (by decide)

/-- C17: for every container, `clear ()` returns with `size () == 0` and `capacity ()` as
before the call, and a second `clear ()` returns the state of the first. -/
theorem clear_idempotent (h : Heap T) (s : simplevec) :
    ∃ h1 s1, clear h s = some (h1, s1) ∧ size s1 = 0 ∧ capacity s1 = capacity s ∧
      clear h1 s1 = some (h1, s1) := by
  refine ⟨h, ⟨0, s.res, s.buf⟩, ?_, rfl, rfl, ?_⟩ <;>
    simp [clear, destruct, is_simple_enough]

/-- C18: for any two containers `a` and `b` in a free store, after `a.swap (b)` the
container `a` has the former size, capacity and elements of `b` and `b` those of `a`, and a
second swap restores both. -/
theorem swap_exchanges (h : Heap T) (a b : simplevec) :
    size (swap a b).1 = size b ∧ capacity (swap a b).1 = capacity b ∧
    (∀ i, index h (swap a b).1 i = index h b i) ∧
    size (swap a b).2 = size a ∧ capacity (swap a b).2 = capacity a ∧
    (∀ i, index h (swap a b).2 i = index h a i) ∧
    swap (swap a b).1 (swap a b).2 = (a, b) :=
  ⟨rfl, rfl, fun _ => rfl, rfl, rfl, fun _ => rfl, rfl⟩

/-! ## C19: element paths and `memmove` -/

theorem getElem?_moved (m : Block T) {d s n : Nat} (hd : d + n ≤ m.length)
    (hs : s + n ≤ m.length) (i : Nat) :
    (moved m d s n)[i]? = if d ≤ i ∧ i < d + n then m[s + (i - d)]? else m[i]? := by
  have hlen : (m.take d).length = d := by rw [List.length_take]; omega
  have hlen2 : ((m.drop s).take n).length = n := by
    rw [List.length_take, List.length_drop]; omega
  unfold moved
  by_cases h1 : i < d
  · rw [List.append_assoc, List.getElem?_append_left (by omega), List.getElem?_take]
    have : ¬ (d ≤ i ∧ i < d + n) := by omega
    simp [h1, this]
  · by_cases h2 : i < d + n
    · rw [List.getElem?_append_left (by simp only [List.length_append, hlen, hlen2]; omega),
        List.getElem?_append_right (by omega), List.getElem?_take, List.getElem?_drop, hlen]
      have h3 : i - d < n := by omega
      have h4 : d ≤ i ∧ i < d + n := by omega
      simp only [h3, h4, if_true, and_self]
    · rw [List.getElem?_append_right (by simp only [List.length_append, hlen, hlen2]; omega),
        List.getElem?_drop]
      have h4 : ¬ (d ≤ i ∧ i < d + n) := by omega
      simp only [List.length_append, hlen, hlen2, h4, if_false]
      congr 1; omega

theorem length_moved (m : Block T) {d s n : Nat} (hd : d + n ≤ m.length)
    (hs : s + n ≤ m.length) : (moved m d s n).length = m.length := by
  simp [moved, List.length_take, List.length_drop]; omega

theorem memmove_moved {h : Heap T} {b : Option Nat} {m : Block T} (hb : blockAt h b = some m)
    {d s n : Nat} (hd : d + n ≤ m.length) (hs : s + n ≤ m.length) :
    memmove h ⟨b, d⟩ ⟨b, s⟩ n = some (putBlock h b (moved m d s n)) :=
  @memmove_ok T h ⟨b, d⟩ ⟨b, s⟩ m m n hb hb hs hd

theorem cop_set_copies_slot (b : Option Nat) : copies_slot (cop_set (T := T)) b := by
  intro h m d s v hb hd hv
  have hl : load h ⟨b, s⟩ = some v := by rw [load_ok hb]; exact hv
  simp only [cop_set, hl]
  exact store_ok hb hd v

theorem cop_new_copies_slot (b : Option Nat) : copies_slot (cop_new (T := T)) b := by
  intro h m d s v hb hd hv
  have hl : load h ⟨b, s⟩ = some v := by rw [load_ok hb]; exact hv
  simp only [cop_new, hl]
  exact store_ok hb hd v

theorem moved_step_higher (m : Block T) {d s n : Nat} (hsd : s ≤ d)
    (hd : d + (n + 1) ≤ m.length) (hs : s + (n + 1) ≤ m.length) {v : Option T}
    (hv : m[s + n]? = some v) :
    moved (m.set (d + n) v) d s n = moved m d s (n + 1) := by
  apply List.ext_getElem?
  intro i
  rw [getElem?_moved _ (by simp; omega) (by simp; omega), getElem?_moved _ hd hs]
  by_cases h1 : d ≤ i ∧ i < d + n
  · have h2 : d ≤ i ∧ i < d + (n + 1) := by omega
    have h3 : d + n ≠ s + (i - d) := by omega
    simp only [h1, h2, and_self, if_true, List.getElem?_set, h3, if_false]
  · by_cases h4 : i = d + n
    · subst h4
      have h2 : d ≤ d + n ∧ d + n < d + (n + 1) := by omega
      have h5 : d + n < m.length := by omega
      have h6 : s + (d + n - d) = s + n := by omega
      simp [List.getElem?_set, h5, h6, hv]
    · have h2 : ¬ (d ≤ i ∧ i < d + (n + 1)) := by omega
      have h3 : d + n ≠ i := by omega
      simp only [h1, h2, if_false, List.getElem?_set, h3]

theorem moved_step_lower (m : Block T) {d s n : Nat} (hds : d ≤ s)
    (hd : d + (n + 1) ≤ m.length) (hs : s + (n + 1) ≤ m.length) {v : Option T}
    (hv : m[s]? = some v) :
    moved (m.set d v) (d + 1) (s + 1) n = moved m d s (n + 1) := by
  apply List.ext_getElem?
  intro i
  rw [getElem?_moved _ (by simp; omega) (by simp; omega), getElem?_moved _ hd hs]
  by_cases h1 : d + 1 ≤ i ∧ i < d + 1 + n
  · have h2 : d ≤ i ∧ i < d + (n + 1) := by omega
    have h3 : d ≠ s + (i - d) := by omega
    have h4 : s + 1 + (i - (d + 1)) = s + (i - d) := by omega
    simp only [h1, h2, and_self, if_true, List.getElem?_set, h4, h3, if_false]
  · by_cases h4 : i = d
    · subst h4
      have h2 : i ≤ i ∧ i < i + (n + 1) := by omega
      have h5 : i < m.length := by omega
      simp only [h1, if_false, h2, and_self, if_true, List.getElem?_set, h5,
        Nat.sub_self, Nat.add_zero, hv]
    · have h2 : ¬ (d ≤ i ∧ i < d + (n + 1)) := by omega
      have h3 : d ≠ i := by omega
      simp only [h1, h2, if_false, List.getElem?_set, h3]

theorem moved_zero (m : Block T) (d s : Nat) : moved m d s 0 = m := by
  simp [moved]

theorem copy_higher_loop_eq {op : Heap T → Ptr → Ptr → Option (Heap T)} {b : Option Nat}
    (hop : copies_slot op b) (d s : Nat) (hsd : s ≤ d) :
    ∀ (n : Nat) (h : Heap T) (m : Block T), blockAt h b = some m →
      d + n ≤ m.length → s + n ≤ m.length →
      copy_higher_loop op h ⟨b, d⟩ ⟨b, s⟩ n = some (putBlock h b (moved m d s n)) := by
  intro n
  induction n with
  | zero =>
    intro h m hb _ _
    rw [moved_zero, putBlock_self hb]; rfl
  | succ n ih =>
    intro h m hb hd hs
    have hlt : s + n < m.length := by omega
    have hv : m[s + n]? = some (m[s + n]) := List.getElem?_eq_getElem hlt
    have hstep := hop h m (d + n) (s + n) _ hb (by omega) hv
    have hb1 := blockAt_putBlock_same hb (m.set (d + n) m[s + n])
    have hrec := ih (putBlock h b (m.set (d + n) m[s + n])) _ hb1
      (by simp; omega) (by simp; omega)
    simp only [copy_higher_loop, Ptr.add, hstep]
    rw [hrec, putBlock_putBlock, moved_step_higher m hsd hd hs hv]

theorem copy_lower_loop_eq {op : Heap T → Ptr → Ptr → Option (Heap T)} {b : Option Nat}
    (hop : copies_slot op b) :
    ∀ (n d s : Nat) (h : Heap T) (m : Block T), d ≤ s → blockAt h b = some m →
      d + n ≤ m.length → s + n ≤ m.length →
      copy_lower_loop op h ⟨b, d⟩ ⟨b, s⟩ n = some (putBlock h b (moved m d s n)) := by
  intro n
  induction n with
  | zero =>
    intro d s h m _ hb _ _
    rw [moved_zero, putBlock_self hb]; rfl
  | succ n ih =>
    intro d s h m hds hb hd hs
    have hlt : s < m.length := by omega
    have hv : m[s]? = some (m[s]) := List.getElem?_eq_getElem hlt
    have hstep := hop h m d s _ hb (by omega) hv
    have hb1 := blockAt_putBlock_same hb (m.set d m[s])
    have hrec := ih (d + 1) (s + 1) (putBlock h b (m.set d m[s])) _ (by omega) hb1
      (by simp; omega) (by simp; omega)
    simp only [copy_lower_loop, Ptr.add, hstep]
    rw [hrec, putBlock_putBlock, moved_step_lower m hds hd hs hv]

/-- C19: for every live block and every two ranges of `n` slots inside it, overlapping or
not, the `memmove` path returns the block with the source range copied to the destination
range; the element loop of `copy_higher` (indices in descending order) returns the same free
store whenever the destination is at or above the source, and the element loop of
`copy_lower` (ascending order) whenever the destination is at or below the source, with
`cop_set` as with `cop_new`. -/
theorem element_paths_agree (h : Heap T) (b : Option Nat) (m : Block T) (dst src n : Nat)
    (hb : blockAt h b = some m) (hd : dst + n ≤ m.length) (hs : src + n ≤ m.length) :
    memmove h ⟨b, dst⟩ ⟨b, src⟩ n = some (putBlock h b (moved m dst src n)) ∧
    (src ≤ dst →
      copy_higher_loop cop_set h ⟨b, dst⟩ ⟨b, src⟩ n = memmove h ⟨b, dst⟩ ⟨b, src⟩ n ∧
      copy_higher_loop cop_new h ⟨b, dst⟩ ⟨b, src⟩ n = memmove h ⟨b, dst⟩ ⟨b, src⟩ n) ∧
    (dst ≤ src →
      copy_lower_loop cop_set h ⟨b, dst⟩ ⟨b, src⟩ n = memmove h ⟨b, dst⟩ ⟨b, src⟩ n ∧
      copy_lower_loop cop_new h ⟨b, dst⟩ ⟨b, src⟩ n = memmove h ⟨b, dst⟩ ⟨b, src⟩ n) := by
  have hmm := memmove_moved hb hd hs
  refine ⟨hmm, ?_, ?_⟩
  · intro hle
    rw [hmm]
    exact ⟨copy_higher_loop_eq (cop_set_copies_slot b) dst src hle n h m hb hd hs,
      copy_higher_loop_eq (cop_new_copies_slot b) dst src hle n h m hb hd hs⟩
  · intro hle
    rw [hmm]
    exact ⟨copy_lower_loop_eq (cop_set_copies_slot b) n dst src h m hle hb hd hs,
      copy_lower_loop_eq (cop_new_copies_slot b) n dst src h m hle hb hd hs⟩

/-- C19 on the block `[1, 2, 3, 4, 5]`: three slots from index 0 to index 1 (ranges that
overlap, destination above) and three slots from index 1 to index 0 (destination below). -/
theorem element_paths_agree_witness :
    (copy_higher_loop cop_set ([some [some 1, some 2, some 3, some 4, some 5]] : Heap Nat)
        ⟨some 0, 1⟩ ⟨some 0, 0⟩ 3
      = memmove ([some [some 1, some 2, some 3, some 4, some 5]] : Heap Nat)
        ⟨some 0, 1⟩ ⟨some 0, 0⟩ 3 ∧
     copy_higher_loop cop_new ([some [some 1, some 2, some 3, some 4, some 5]] : Heap Nat)
        ⟨some 0, 1⟩ ⟨some 0, 0⟩ 3
      = memmove ([some [some 1, some 2, some 3, some 4, some 5]] : Heap Nat)
        ⟨some 0, 1⟩ ⟨some 0, 0⟩ 3) ∧
    (copy_lower_loop cop_set ([some [some 1, some 2, some 3, some 4, some 5]] : Heap Nat)
        ⟨some 0, 0⟩ ⟨some 0, 1⟩ 3
      = memmove ([some [some 1, some 2, some 3, some 4, some 5]] : Heap Nat)
        ⟨some 0, 0⟩ ⟨some 0, 1⟩ 3 ∧
     copy_lower_loop cop_new ([some [some 1, some 2, some 3, some 4, some 5]] : Heap Nat)
        ⟨some 0, 0⟩ ⟨some 0, 1⟩ 3
      = memmove ([some [some 1, some 2, some 3, some 4, some 5]] : Heap Nat)
        ⟨some 0, 0⟩ ⟨some 0, 1⟩ 3) ∧
    memmove ([some [some 1, some 2, some 3, some 4, some 5]] : Heap Nat)
        ⟨some 0, 1⟩ ⟨some 0, 0⟩ 3 = some [some [some 1, some 1, some 2, some 3, some 5]] ∧
    memmove ([some [some 1, some 2, some 3, some 4, some 5]] : Heap Nat)
        ⟨some 0, 0⟩ ⟨some 0, 1⟩ 3 = some [some [some 2, some 3, some 4, some 4, some 5]] :=
  ⟨(element_paths_agree ([some [some 1, some 2, some 3, some 4, some 5]] : Heap Nat)
      (some 0) [some 1, some 2, some 3, some 4, some 5] 1 0 3 (by decide) (by decide)
      (by decide)).2.1 (by decide),
   (element_paths_agree ([some [some 1, some 2, some 3, some 4, some 5]] : Heap Nat)
      (some 0) [some 1, some 2, some 3, some 4, some 5] 0 1 3 (by decide) (by decide)
      (by decide)).2.2 (by decide),
   by decide, by decide⟩

/-! ## C20: arguments of `good_size` -/

/-- C20: `good_size` is never called with 0. The calls are those of `reserve` and `ins`
(`reserve_with good_size` and `ins_with good_size` are these two functions): `reserve`
passes `sz` only when `sz > res`, `ins` passes `sze + n` (as a `size_type`) only when that
value exceeds `res`, so the argument is positive for every state and every argument, and a
growth policy `g` that agrees with `good_size` on the positive numbers gives the same
result whatever it returns for 0. -/
theorem good_size_arg_positive [Inhabited T] (g : Nat → Nat)
    (hg : ∀ n, 0 < n → g n = good_size n) (h : Heap T) (s : simplevec) (sz : Nat)
    (w : Ptr) (n : Nat) :
    reserve_with good_size h s sz = reserve h s sz ∧
    ins_with good_size h s w n = ins h s w n ∧
    (¬ sz ≤ s.res → 0 < sz) ∧
    (to_size_type (s.sze + n) > s.res → 0 < to_size_type (s.sze + n)) ∧
    reserve_with g h s sz = reserve h s sz ∧
    ins_with g h s w n = ins h s w n := by
  refine ⟨rfl, rfl, fun hle => by omega, fun hgt => by omega, ?_, ?_⟩
  · by_cases hle : sz ≤ s.res
    · simp [reserve_with, reserve, hle]
    · simp only [reserve_with, reserve, hle, if_false, hg sz (by omega)]
  · by_cases hgt : to_size_type (s.sze + n) > s.res
    · simp only [ins_with, ins, hgt, if_true, hg _ (Nat.lt_of_le_of_lt (Nat.zero_le _) hgt)]
    · simp only [ins_with, ins, hgt, if_false]

/-- C20 with a policy that returns 0 for 0, on `reserve (3)` and an insertion of two
elements into the container `[7]` of capacity 2. -/
theorem good_size_arg_positive_witness :
    reserve_with good_size ([some [some 7, none]] : Heap Nat) ⟨1, 2, ⟨some 0, 0⟩⟩ 3
      = reserve ([some [some 7, none]] : Heap Nat) ⟨1, 2, ⟨some 0, 0⟩⟩ 3 ∧
    ins_with good_size ([some [some 7, none]] : Heap Nat) ⟨1, 2, ⟨some 0, 0⟩⟩ ⟨some 0, 1⟩ 2
      = ins ([some [some 7, none]] : Heap Nat) ⟨1, 2, ⟨some 0, 0⟩⟩ ⟨some 0, 1⟩ 2 ∧
    (¬ 3 ≤ (⟨1, 2, ⟨some 0, 0⟩⟩ : simplevec).res → 0 < 3) ∧
    (to_size_type ((⟨1, 2, ⟨some 0, 0⟩⟩ : simplevec).sze + 2)
        > (⟨1, 2, ⟨some 0, 0⟩⟩ : simplevec).res →
      0 < to_size_type ((⟨1, 2, ⟨some 0, 0⟩⟩ : simplevec).sze + 2)) ∧
    reserve_with (fun n => if n = 0 then 0 else good_size n)
        ([some [some 7, none]] : Heap Nat) ⟨1, 2, ⟨some 0, 0⟩⟩ 3
      = reserve ([some [some 7, none]] : Heap Nat) ⟨1, 2, ⟨some 0, 0⟩⟩ 3 ∧
    ins_with (fun n => if n = 0 then 0 else good_size n)
        ([some [some 7, none]] : Heap Nat) ⟨1, 2, ⟨some 0, 0⟩⟩ ⟨some 0, 1⟩ 2
      = ins ([some [some 7, none]] : Heap Nat) ⟨1, 2, ⟨some 0, 0⟩⟩ ⟨some 0, 1⟩ 2 :=
  good_size_arg_positive (fun n => if n = 0 then 0 else good_size n)
    (fun n hn => by simp [Nat.ne_of_gt hn]) ([some [some 7, none]] : Heap Nat)
    ⟨1, 2, ⟨some 0, 0⟩⟩ 3 ⟨some 0, 1⟩ 2

end Estl
